import Mathlib

/-!
Verification development for the `convoy` asset packager
(`lib/asset_packager.js`).

Shallow embedding: the JavaScript module is single-threaded and
callback-driven, so every operation is modelled as a pure function that
threads the packager's mutable state (the per-path source-asset cache and
the memoized build result) explicitly and returns, besides its value, the
list of plugin invocations it performed (`Ev`).  Callback completion
`done(err, value)` is modelled by `Res`: `Res.ok` / `Res.err` are the two
callback outcomes, `Res.thrown` models a synchronous JavaScript exception
escaping the callback chain (an uncaught exception, i.e. a crash), and
`Res.fuelOut` is a model artifact marking exhaustion of the explicit
recursion bound used for the dependency-expansion recursion.

External collaborators are oracles inside `Env`: the filesystem
(`FS.readFile` / `FS.writeFile`), the `resolve` npm package
(`RESOLVE.sync`, which receives the registered compiler extensions), and
the working directory used by `PATH.resolve`.  The plugin set is the one
shipped in the repository (`JavaScriptCompiler`, `JavaScriptAnalyzer`,
`SimpleMergeLinker`, `UglifyMinifier`); language plugins beyond those are
external collaborators per the spec's scope.

`UTILS.once` comes from `lib/utils.js`, which is not part of the sources;
following the spec (sections 4.2 and 9) it is modelled as a settle-once
memoized computation: the cache stores the settled callback arguments and
every later request for the same key receives them unchanged.
-/

/-- Callback errors, as produced by the code's `done(err)` calls. -/
inductive Err where
  /-- `new Error('No compiler for ' + assetPath)` -/
  | noCompiler (path : String)
  /-- `new Error('No analyzer for ' + self.path)` -/
  | noAnalyzer
  /-- filesystem read failure inside `FS.readFile` -/
  | io (path : String)
  /-- `RESOLVE.sync` threw, caught by the analyzer's try/catch -/
  | resolution (id : String)
  /-- filesystem write failure inside `FS.writeFile` -/
  | ioWrite (path : String)
deriving DecidableEq, Repr

/-- Runtime (thrown) JavaScript errors: these are never passed to a
callback, they crash the process. -/
inductive RtErr where
  /-- e.g. reading `.dependencies` of `undefined`, or calling a missing
  linker/minifier, or `async.map` over `undefined` -/
  | typeError
  /-- `RESOLVE.sync` threw outside any try/catch (in `build`) -/
  | resolveFail (id : String)
deriving DecidableEq, Repr

/-- Outcome of an asynchronous operation. -/
inductive Res (α : Type) where
  /-- callback invoked with `(null, a)` -/
  | ok (a : α)
  /-- callback invoked with an error -/
  | err (e : Err)
  /-- a JavaScript exception escaped: the callback is never invoked -/
  | thrown (e : RtErr)
  /-- model artifact: the explicit recursion bound ran out -/
  | fuelOut
deriving DecidableEq, Repr

/-- Observable plugin / filesystem invocations, in order. -/
inductive Ev where
  | compile (path : String)
  | analyze (path : String)
  | link
  | minify
  | post (i : Nat)
  | fsWrite (path : String) (body : String) (enc : String)
deriving DecidableEq, Repr

/-- One compiled source file (`{ path, body, dependencies }` built at
`getSourceAsset` lines 173-176).  `body` starts as `""` standing for the
JavaScript `undefined` until the compiler assigns it. -/
structure SourceAsset where
  path : String
  body : String
  dependencies : List String
deriving DecidableEq, Repr

/-- The in-progress or final output of a build (`{ path, assets }` built
at `build` lines 254-257); `body` is filled in by the linker, `encoding`
is only read by `write` (`asset.encoding || 'utf8'`). -/
structure CompositeAsset where
  path : String
  assets : List SourceAsset
  body : String
  encoding : Option String
deriving DecidableEq, Repr

/-- The compilers the repository ships (`JavaScriptCompiler`); further
compilers are external collaborators outside the embedding. -/
inductive CompilerK where
  | javascript
deriving DecidableEq, Repr

/-- The analyzers the repository ships (`JavaScriptAnalyzer`). -/
inductive AnalyzerK where
  | javascript
deriving DecidableEq, Repr

/-- The linkers the repository ships (`SimpleMergeLinker`). -/
inductive LinkerK where
  | simpleMerge
deriving DecidableEq, Repr

/-- The minifiers the repository ships (`UglifyMinifier`, which is a
no-op: it just calls `done()`). -/
inductive MinifierK where
  | uglify
deriving DecidableEq, Repr

/-- `main` may be a single string or an array (`build` line 243
normalizes a string to a one-element array). -/
inductive MainSpec where
  | one (s : String)
  | many (l : List String)
deriving DecidableEq, Repr

/-- Packager configuration after the constructor merged the defaults
(`AssetPackager` lines 125-146).  `Option` fields model JavaScript
`undefined`/`null` members. -/
structure Config where
  basedir : String
  path : String
  compilers : List (String × CompilerK)
  analyzer : Option AnalyzerK
  linker : Option LinkerK
  minify : Bool
  minifier : Option MinifierK
  /-- declared in `build` but never invoked by it; the element type is
  irrelevant to the code, which only reads the field -/
  postprocessors : Option (List Unit)
  main : Option MainSpec

/-- External collaborators: filesystem contents, the `resolve` package
(taking the registered extensions, the module id and the basedir), the
process working directory, and the write-outcome oracle for
`FS.writeFile` (`none` = success). -/
structure Env where
  files : String → Option String
  resolveOracle : List String → String → String → Option String
  cwd : String
  writeRes : String → Option Err

/-- Split a character list at every occurrence of `c` (the separator is
dropped; `n` separators yield `n + 1` groups).  Structural replacement
for `String.splitOn` with a one-character separator. -/
def splitOnChar (c : Char) : List Char → List (List Char)
  | [] => [[]]
  | x :: xs =>
    match splitOnChar c xs with
    | [] => [[]]
    | g :: gs => if x = c then [] :: g :: gs else (x :: g) :: gs

/-- Join character-list groups with the separator `c` (inverse of
`splitOnChar`, structural replacement for `String.intercalate`). -/
def joinChar (c : Char) : List (List Char) → List Char
  | [] => []
  | [g] => g
  | g :: gs => g ++ c :: joinChar c gs

/-- Whether a path is absolute (starts with a slash). -/
def isAbs (s : String) : Bool :=
  match s.data with
  | '/' :: _ => true
  | _ => false

/-- Model of `PATH.resolve(base, p)` for already-normalized paths:
`..`/`.` segment collapsing is not modelled, concrete instances use
normalized paths. -/
def pathResolve (base p : String) : String :=
  if isAbs p then p else base ++ "/" ++ p

/-- Model of `PATH.dirname`. -/
def dirname (s : String) : String :=
  let parts := splitOnChar '/' s.data
  if parts.length ≤ 1 then "."
  else
    let d := joinChar '/' parts.dropLast
    if d = [] then "/" else String.mk d

/-- Model of `PATH.extname`: the suffix of the final path segment from
its last dot, empty when the segment has no dot or only a leading dot. -/
def extname (s : String) : String :=
  let base := (splitOnChar '/' s.data).getLastD s.data
  let dotParts := splitOnChar '.' base
  if dotParts.length ≤ 1 then ""
  else if dotParts.length = 2 ∧ dotParts.headD [] = [] then ""
  else String.mk ('.' :: dotParts.getLastD [])

/-- The whitespace the `//= require` regular expression accepts inside a
line (`\s` restricted to the characters that can occur there once the
body is split at newlines). -/
def isWS (c : Char) : Bool :=
  c = ' ' ∨ c = '\t' ∨ c = '\r'

/-- One line of `JavaScriptAnalyzer`'s directive syntax
(`/^\s*\/\/=\s+require\s+(.+)\s*$/`): optional leading whitespace,
`//=`, whitespace, `require`, whitespace, then a nonempty id (greedy, so
trailing whitespace stays inside the id exactly as in the capture). -/
def parseRequireLine (line : List Char) : Option String :=
  let cs := line.dropWhile isWS
  match cs with
  | '/' :: '/' :: '=' :: rest =>
    let rest2 := rest.dropWhile isWS
    if rest2.length = rest.length then none
    else
      match rest2 with
      | 'r' :: 'e' :: 'q' :: 'u' :: 'i' :: 'r' :: 'e' :: rest3 =>
        let rest4 := rest3.dropWhile isWS
        if rest4.length = rest3.length then none
        else if rest4 = [] then none
        else some (String.mk rest4)
      | _ => none
  | _ => none

/-- The module ids of all `//= require` lines of a body, in order
(the `match` with the `mg` flags at `JavaScriptAnalyzer` line 60). -/
def extractRequires (body : String) : List String :=
  (splitOnChar '\n' body.data).filterMap parseRequireLine

/-- Association-list lookup (structural replacement for `List.lookup`,
used for the compiler registry and the source-asset cache). -/
def assocLookup {α : Type} : List (String × α) → String → Option α
  | [], _ => none
  | (k, v) :: rest, p => if k = p then some v else assocLookup rest p

/-- `AssetPackager.prototype.resolve` (lines 198-203): delegates to
`RESOLVE.sync` with the registered compiler extensions; `none` models a
throw of the resolve package. -/
def packagerResolve (cfg : Config) (env : Env) (id basedir : String) :
    Option String :=
  env.resolveOracle (cfg.compilers.map Prod.fst) id basedir

/-- `JavaScriptCompiler` (lines 50-56): read the file at `asset.path`
into `body`; a read failure is passed to the callback. -/
def runCompiler (k : CompilerK) (env : Env) (a : SourceAsset) :
    Except Err SourceAsset :=
  match k with
  | .javascript =>
    match env.files a.path with
    | none => .error (.io a.path)
    | some d => .ok { a with body := d }

/-- `JavaScriptAnalyzer` (lines 59-80): extract `//= require` ids; when
there are none the asset is left untouched (its `dependencies` stay as
initialized), otherwise each id is resolved relative to the asset's
directory and the first resolution failure is caught and passed to the
callback. -/
def runAnalyzer (k : AnalyzerK) (cfg : Config) (env : Env)
    (a : SourceAsset) : Except Err SourceAsset :=
  match k with
  | .javascript =>
    let ids := extractRequires a.body
    if ids = [] then .ok a
    else
      match ids.mapM (fun id =>
          match packagerResolve cfg env id (dirname a.path) with
          | some p => Except.ok p
          | none => Except.error (Err.resolution id)) with
      | .error e => .error e
      | .ok paths => .ok { a with dependencies := paths }

/-- The body of the memoized computation installed by `getSourceAsset`
(lines 161-184): pick the compiler by extension, check the analyzer,
build the fresh `{path, dependencies: []}` asset, run compiler then
analyzer.  Returns the settled callback value and the plugin invocations
performed. -/
def computeSourceAsset (cfg : Config) (env : Env) (p : String) :
    Except Err SourceAsset × List Ev :=
  match assocLookup cfg.compilers (extname p) with
  | none => (.error (.noCompiler p), [])
  | some ck =>
    match cfg.analyzer with
    | none => (.error .noAnalyzer, [])
    | some ak =>
      let a0 : SourceAsset := { path := p, body := "", dependencies := [] }
      match runCompiler ck env a0 with
      | .error e => (.error e, [Ev.compile p])
      | .ok a1 =>
        match runAnalyzer ak cfg env a1 with
        | .error e => (.error e, [Ev.compile p, Ev.analyze p])
        | .ok a2 => (.ok a2, [Ev.compile p, Ev.analyze p])

/-- The settled value `getSourceAsset` associates with a resolved path. -/
def valueOf (cfg : Config) (env : Env) (p : String) :
    Except Err SourceAsset :=
  (computeSourceAsset cfg env p).1

/-- The `_sourceAssets` cache: resolved path to settled callback
arguments (the spec-modelled `UTILS.once` stores the settled result; a
cached error is returned unchanged, never retried). -/
abbrev SrcCache := List (String × Except Err SourceAsset)

/-- `AssetPackager.prototype.getSourceAsset` (lines 157-188): resolve
the path against `basedir`, and return the memoized computation for it,
creating and running it on a miss. -/
def getSourceAsset (cfg : Config) (env : Env) (st : SrcCache)
    (p0 : String) : Except Err SourceAsset × SrcCache × List Ev :=
  let p := pathResolve cfg.basedir p0
  match assocLookup st p with
  | some r => (r, st, [])
  | none =>
    let re := computeSourceAsset cfg env p
    (re.1, st ++ [(p, re.1)], re.2)

/-- The inner `ASYNC.mapSeries` of `_expandDependencies` (lines 93-95):
fetch each dependency path through `getSourceAsset` in order.  `async`'s
`mapSeries` stops at the first error; the failed slot has been assigned
`undefined` (`none`) because the iterator stored the missing value before
aborting, and the error itself is discarded by the caller (the completion
callback at line 95 never checks `err`). -/
def mapSourceAssets (cfg : Config) (env : Env) (st : SrcCache) :
    List String → List (Option SourceAsset) × SrcCache × List Ev
  | [] => ([], st, [])
  | p :: rest =>
    match getSourceAsset cfg env st p with
    | (.ok a, st1, e1) =>
      let out := mapSourceAssets cfg env st1 rest
      (some a :: out.1, out.2.1, e1 ++ out.2.2)
    | (.error _, st1, e1) => ([none], st1, e1)

/-- The `ASYNC.forEachSeries` loop of `_expandDependencies` (lines
84-101).  `seen` and `expanded` are the shared mutable arrays, threaded
explicitly; list elements are `Option` because a failed `mapSeries` slot
is `undefined`.  Reading `.dependencies` of such an `undefined` entry
throws (`Res.thrown .typeError`).  The iterator never passes an error to
`next`, so the completion callback's `err` (line 102) is always `null`:
a normal completion is always `Res.ok`.  The recursive self-call of the
source (line 96) is abstracted as `recurse`, instantiated below with the
next level of the fuel-indexed expansion. -/
def expandLoop (cfg : Config) (env : Env)
    (recurse : SrcCache → List (Option SourceAsset) → List SourceAsset →
      List (Option SourceAsset) →
      Res (List (Option SourceAsset) × List SourceAsset) × SrcCache × List Ev) :
    SrcCache → List (Option SourceAsset) → List SourceAsset →
    List (Option SourceAsset) →
    Res (List (Option SourceAsset) × List SourceAsset) × SrcCache × List Ev
  | st, seen, expanded, [] => (.ok (seen, expanded), st, [])
  | st, seen, expanded, x :: rest =>
    if x ∈ seen then expandLoop cfg env recurse st seen expanded rest
    else
      let seen1 := seen ++ [x]
      match x with
      | none => (.thrown .typeError, st, [])
      | some a =>
        if a.dependencies = [] then
          expandLoop cfg env recurse st seen1 (expanded ++ [a]) rest
        else
          match mapSourceAssets cfg env st a.dependencies with
          | (assets, st1, e1) =>
            match recurse st1 seen1 expanded assets with
            | (.ok (seen2, expanded2), st2, e2) =>
              let out := expandLoop cfg env recurse st2 seen2
                  (expanded2 ++ [a]) rest
              (out.1, out.2.1, e1 ++ e2 ++ out.2.2)
            | (bad, st2, e2) => (bad, st2, e1 ++ e2)

/-- `_expandDependencies` (lines 83-105).  The source recurses without
bound; the `Nat` index is a model artifact bounding the nesting depth
(each recursion level consumes one unit, so any fuel larger than the
number of distinct reachable assets is enough; see the termination
theorem). -/
def expandDependencies (cfg : Config) (env : Env) :
    Nat → SrcCache → List (Option SourceAsset) → List SourceAsset →
    List (Option SourceAsset) →
    Res (List (Option SourceAsset) × List SourceAsset) × SrcCache × List Ev
  | 0, st, _, _, _ => (.fuelOut, st, [])
  | fuel + 1, st, seen, expanded, deps =>
    expandLoop cfg env (expandDependencies cfg env fuel) st seen expanded deps

/-- `SimpleMergeLinker` (lines 107-114): expand the root assets'
dependency closure and join the bodies with newlines.  The `err` check
at line 109 is dead (the expansion callback never receives an error);
thrown exceptions propagate. -/
def runLinker (k : LinkerK) (cfg : Config) (env : Env) (fuel : Nat)
    (st : SrcCache) (ca : CompositeAsset) :
    Res CompositeAsset × SrcCache × List Ev :=
  match k with
  | .simpleMerge =>
    match expandDependencies cfg env fuel st [] [] (ca.assets.map some) with
    | (.ok (_, expanded), st1, e1) =>
      (.ok { ca with
               body := String.mk
                 (joinChar '\n' (expanded.map (fun a => a.body.data))) },
       st1, e1)
    | (.err e, st1, e1) => (.err e, st1, e1)
    | (.thrown e, st1, e1) => (.thrown e, st1, e1)
    | (.fuelOut, st1, e1) => (.fuelOut, st1, e1)

/-- `UglifyMinifier` (lines 117-119): just calls `done()`. -/
def runMinifier (k : MinifierK) (ca : CompositeAsset) :
    Res CompositeAsset :=
  match k with
  | .uglify => .ok ca

/-- Step 1 of `build`'s waterfall (lines 247-251): resolve each `main`
entry (a synchronous `RESOLVE.sync` failure throws, uncaught) and fetch
its source asset, preserving order.  `ASYNC.map` runs its iterators
eagerly but delivers the first error; the sequential model aborts at the
first failing entry. -/
def resolveMains (cfg : Config) (env : Env) (st : SrcCache) :
    List String → Res (List SourceAsset) × SrcCache × List Ev
  | [] => (.ok [], st, [])
  | m :: rest =>
    match packagerResolve cfg env m cfg.basedir with
    | none => (.thrown (.resolveFail m), st, [])
    | some p =>
      match getSourceAsset cfg env st p with
      | (.ok a, st1, e1) =>
        match resolveMains cfg env st1 rest with
        | (.ok more, st2, e2) => (.ok (a :: more), st2, e1 ++ e2)
        | (.err e, st2, e2) => (.err e, st2, e1 ++ e2)
        | (.thrown e, st2, e2) => (.thrown e, st2, e1 ++ e2)
        | (.fuelOut, st2, e2) => (.fuelOut, st2, e1 ++ e2)
      | (.error e, st1, e1) => (.err e, st1, e1)

/-- The body of the memoized `_build` computation (lines 227-273).  The
validation block (lines 234-240) computes a configuration `Error` into a
local `err` that is never checked afterwards, so it has no effect on the
behaviour: an unset `main` reaches `ASYNC.map(undefined, ...)` and
throws, an unset `linker` or a missing minifier with `minify` set is
called as a function and throws.  Postprocessors are read (line 231) and
normalized (line 244) but never invoked. -/
def buildCompute (cfg : Config) (env : Env) (fuel : Nat) (st : SrcCache) :
    Res CompositeAsset × SrcCache × List Ev :=
  match cfg.main with
  | none => (.thrown .typeError, st, [])
  | some ms =>
    let mains := match ms with | .one s => [s] | .many l => l
    match resolveMains cfg env st mains with
    | (.ok assets, st1, e1) =>
      let ca : CompositeAsset :=
        { path := cfg.path, assets := assets, body := "", encoding := none }
      match cfg.linker with
      | none => (.thrown .typeError, st1, e1)
      | some lk =>
        match runLinker lk cfg env fuel st1 ca with
        | (.ok ca1, st2, e2) =>
          if cfg.minify then
            match cfg.minifier with
            | none => (.thrown .typeError, st2, e1 ++ Ev.link :: e2)
            | some mk =>
              match runMinifier mk ca1 with
              | .ok ca2 =>
                (.ok ca2, st2, e1 ++ Ev.link :: e2 ++ [Ev.minify])
              | .err e => (.err e, st2, e1 ++ Ev.link :: e2 ++ [Ev.minify])
              | .thrown e =>
                (.thrown e, st2, e1 ++ Ev.link :: e2 ++ [Ev.minify])
              | .fuelOut => (.fuelOut, st2, e1 ++ Ev.link :: e2 ++ [Ev.minify])
          else (.ok ca1, st2, e1 ++ Ev.link :: e2)
        | (.err e, st2, e2) => (.err e, st2, e1 ++ Ev.link :: e2)
        | (.thrown e, st2, e2) => (.thrown e, st2, e1 ++ Ev.link :: e2)
        | (.fuelOut, st2, e2) => (.fuelOut, st2, e1 ++ Ev.link :: e2)
    | (.err e, st1, e1) => (.err e, st1, e1)
    | (.thrown e, st1, e1) => (.thrown e, st1, e1)
    | (.fuelOut, st1, e1) => (.fuelOut, st1, e1)

instance {ε α : Type} [DecidableEq ε] [DecidableEq α] :
    DecidableEq (Except ε α) := fun x y =>
  match x, y with
  | .ok a, .ok b =>
    if h : a = b then .isTrue (congrArg Except.ok h)
    else .isFalse (fun c => h (Except.ok.inj c))
  | .error a, .error b =>
    if h : a = b then .isTrue (congrArg Except.error h)
    else .isFalse (fun c => h (Except.error.inj c))
  | .ok _, .error _ => .isFalse (fun c => Except.noConfusion c)
  | .error _, .ok _ => .isFalse (fun c => Except.noConfusion c)

/-- Whole-packager mutable state: the source-asset cache and the
memoized `_build` settlement (`_reset`, lines 41-44). -/
structure PState where
  src : SrcCache
  bld : Option (Except Err CompositeAsset)
deriving DecidableEq, Repr

/-- `AssetPackager.prototype.build` (lines 224-277): memoized through
the spec-modelled `UTILS.once`.  A settled callback result (value or
error) is stored and replayed to every later call without invoking any
plugin again; a thrown exception never settles (the process crashed). -/
def build (cfg : Config) (env : Env) (fuel : Nat) (ps : PState) :
    Res CompositeAsset × PState × List Ev :=
  match ps.bld with
  | some (.ok a) => (.ok a, ps, [])
  | some (.error e) => (.err e, ps, [])
  | none =>
    match buildCompute cfg env fuel ps.src with
    | (.ok a, st1, e1) => (.ok a, ⟨st1, some (.ok a)⟩, e1)
    | (.err e, st1, e1) => (.err e, ⟨st1, some (.error e)⟩, e1)
    | (.thrown e, st1, e1) => (.thrown e, ⟨st1, none⟩, e1)
    | (.fuelOut, st1, e1) => (.fuelOut, ⟨st1, none⟩, e1)

/-- `AssetPackager.prototype.invalidate` (lines 308-310) via `_reset`. -/
def invalidate (_ps : PState) : PState := ⟨[], none⟩

/-- `AssetPackager.prototype.write` after argument normalization (lines
293-300): default the output path to the configured `path`, resolve it
against the working directory, run `build`, and on success write the
body with `asset.encoding || 'utf8'`.  On a build error the callback
receives that error and no write happens. -/
def write (cfg : Config) (env : Env) (fuel : Nat) (ps : PState)
    (outputPath : Option String) : Res Unit × PState × List Ev :=
  let op0 := match outputPath with
    | none => cfg.path
    | some s => if s = "" then cfg.path else s
  let op := pathResolve env.cwd op0
  match build cfg env fuel ps with
  | (.ok a, ps1, e1) =>
    let enc := a.encoding.getD "utf8"
    match env.writeRes op with
    | none => (.ok (), ps1, e1 ++ [Ev.fsWrite op a.body enc])
    | some e => (.err e, ps1, e1 ++ [Ev.fsWrite op a.body enc])
  | (.err e, ps1, e1) => (.err e, ps1, e1)
  | (.thrown e, ps1, e1) => (.thrown e, ps1, e1)
  | (.fuelOut, ps1, e1) => (.fuelOut, ps1, e1)

/-- A JavaScript argument as passed to `write`: a string, a function
(identified by a tag), or `undefined`. -/
inductive JSArg where
  | str (s : String)
  | fn (f : Nat)
  | undef
deriving DecidableEq, Repr

/-- `write`'s raw two-argument entry (lines 287-294) including the
argument shift `if (!done && typeof outputPath === 'function')`.
Returns which callback function ends up being `done` together with the
observable outcome.  Passing a function in both positions leaves a
function as the output path and `PATH.resolve` throws on it. -/
def writeCall (cfg : Config) (env : Env) (fuel : Nat) (ps : PState)
    (a1 a2 : JSArg) : Option Nat × Res Unit × PState × List Ev :=
  match a2 with
  | .fn g =>
    match a1 with
    | .str s => (some g, write cfg env fuel ps (some s))
    | .undef => (some g, write cfg env fuel ps none)
    | .fn _ => (some g, .thrown .typeError, ps, [])
  | _ =>
    match a1 with
    | .fn f => (some f, write cfg env fuel ps none)
    | .str s => (none, write cfg env fuel ps (some s))
    | .undef => (none, write cfg env fuel ps none)

/-- Events that come from the source-asset pipeline (compiler or
analyzer invocations). -/
def isSrcEv : Ev → Bool
  | .compile _ => true
  | .analyze _ => true
  | _ => false

/-- Postprocessor invocation events. -/
def isPostEv : Ev → Bool
  | .post _ => true
  | _ => false

/-- Filesystem write events. -/
def isFsWriteEv : Ev → Bool
  | .fsWrite _ _ _ => true
  | _ => false

/-- Cache coherence: every settled entry is the value the computation
for its key produces.  `getSourceAsset` creates entries only this way. -/
def CacheOK (cfg : Config) (env : Env) (st : SrcCache) : Prop :=
  ∀ k r, (k, r) ∈ st → r = valueOf cfg env k

/-- How many assets of the universe `U` have not been marked `seen` yet
(the measure that bounds the nesting depth of closure expansion). -/
def remaining (U : List SourceAsset) (seen : List (Option SourceAsset)) : Nat :=
  (U.filter (fun u => decide (some u ∉ seen))).length

/-!  Concrete instances used by the closed claim theorems and the
witnesses.  All of them register only the `.js` compiler, the shipped
analyzer and the shipped linker, with `basedir` `/r`. -/

/-- A filesystem/resolver with the diamond graph `A → {B, C}`,
`B → D`, `C → D` expressed through `//= require` directives. -/
def diamondEnv : Env where
  files := fun p =>
    if p = "/r/A.js" then some "//= require ./B\n//= require ./C\na;"
    else if p = "/r/B.js" then some "//= require ./D\nb;"
    else if p = "/r/C.js" then some "//= require ./D\nc;"
    else if p = "/r/D.js" then some "d;"
    else none
  resolveOracle := fun _ id dir =>
    if dir = "/r" then
      if id = "A" then some "/r/A.js"
      else if id = "./B" then some "/r/B.js"
      else if id = "./C" then some "/r/C.js"
      else if id = "./D" then some "/r/D.js"
      else none
    else none
  cwd := "/"
  writeRes := fun _ => none

/-- The shared base configuration of the concrete instances. -/
def baseCfg : Config where
  basedir := "/r"
  path := "/out/app.js"
  compilers := [(".js", .javascript)]
  analyzer := some .javascript
  linker := some .simpleMerge
  minify := false
  minifier := none
  postprocessors := none
  main := some (.one "A")

/-- The compiled-and-analyzed diamond assets. -/
def dA : SourceAsset :=
  ⟨"/r/A.js", "//= require ./B\n//= require ./C\na;", ["/r/B.js", "/r/C.js"]⟩

/-- Diamond asset `B`. -/
def dB : SourceAsset := ⟨"/r/B.js", "//= require ./D\nb;", ["/r/D.js"]⟩

/-- Diamond asset `C`. -/
def dC : SourceAsset := ⟨"/r/C.js", "//= require ./D\nc;", ["/r/D.js"]⟩

/-- Diamond asset `D` (no dependencies). -/
def dD : SourceAsset := ⟨"/r/D.js", "d;", []⟩

/-- A filesystem/resolver with the mutual cycle `a ↔ b`. -/
def cycleEnv : Env where
  files := fun p =>
    if p = "/r/a.js" then some "//= require ./b\na;"
    else if p = "/r/b.js" then some "//= require ./a\nb;"
    else none
  resolveOracle := fun _ id dir =>
    if dir = "/r" then
      if id = "a" ∨ id = "./a" then some "/r/a.js"
      else if id = "./b" then some "/r/b.js"
      else none
    else none
  cwd := "/"
  writeRes := fun _ => none

/-- Cyclic asset `a` (depends on `b`). -/
def cyA : SourceAsset := ⟨"/r/a.js", "//= require ./b\na;", ["/r/b.js"]⟩

/-- Cyclic asset `b` (depends back on `a`). -/
def cyB : SourceAsset := ⟨"/r/b.js", "//= require ./a\nb;", ["/r/a.js"]⟩

/-- A filesystem/resolver where `m` requires `./x` but `/r/x.js` cannot
be read: the dependency's compilation fails. -/
def failEnv : Env where
  files := fun p => if p = "/r/m.js" then some "//= require ./x\nm;" else none
  resolveOracle := fun _ id dir =>
    if dir = "/r" then
      if id = "m" then some "/r/m.js"
      else if id = "./x" then some "/r/x.js"
      else none
    else none
  cwd := "/"
  writeRes := fun _ => none

/-- The compiled root whose dependency fails to compile. -/
def mAsset : SourceAsset := ⟨"/r/m.js", "//= require ./x\nm;", ["/r/x.js"]⟩

/-- A one-file filesystem: `/r/a.js` with body `a;`, resolvable as
module id `a`. -/
def singleEnv : Env where
  files := fun p => if p = "/r/a.js" then some "a;" else none
  resolveOracle := fun _ id dir =>
    if id = "a" ∧ dir = "/r" then some "/r/a.js" else none
  cwd := "/"
  writeRes := fun _ => none

/-- `minify` requested but no minifier configured (the spec's own
end-to-end failure scenario). -/
def cfgMinNoMinifier : Config :=
  { baseCfg with
      main := some (.one "a")
      minify := true
      minifier := none }

/-- A full success configuration with a postprocessor configured:
minify on, the shipped minifier, one postprocessor. -/
def cfgPost : Config :=
  { baseCfg with
      main := some (.one "a")
      minify := true
      minifier := some .uglify
      postprocessors := some [()] }

/-- The dependency relation closure expansion walks: `a` depends on `b`
when some entry of `a.dependencies` resolves and compiles to `b`. -/
def DependsOn (cfg : Config) (env : Env) (a b : SourceAsset) : Prop :=
  ∃ q, q ∈ a.dependencies ∧
    valueOf cfg env (pathResolve cfg.basedir q) = Except.ok b

/-- `DepFirstAux cfg env prev l`: walking `l` left to right with the
already-emitted prefix `prev`, every element's dependency-assets lie
strictly before it (dependency-first / post-order). -/
def DepFirstAux (cfg : Config) (env : Env) :
    List SourceAsset → List SourceAsset → Prop
  | _, [] => True
  | prev, a :: l =>
    (∀ b, DependsOn cfg env a b → b ∈ prev) ∧
    DepFirstAux cfg env (prev ++ [a]) l

/-- Transitive reachability from a root list along `DependsOn` (the
assets "transitively reachable" from the expansion roots). -/
inductive ReachableFrom (cfg : Config) (env : Env)
    (roots : List SourceAsset) : SourceAsset → Prop where
  | root (a : SourceAsset) (h : a ∈ roots) : ReachableFrom cfg env roots a
  | step (a b : SourceAsset) (h : ReachableFrom cfg env roots a)
      (hd : DependsOn cfg env a b) : ReachableFrom cfg env roots b

theorem assocLookup_mem {α : Type} (st : List (String × α)) (k : String)
    (v : α) (h : assocLookup st k = some v) : (k, v) ∈ st := by
  induction st with
  | nil => simp [assocLookup] at h
  | cons hd tl ih =>
    obtain ⟨k0, v0⟩ := hd
    by_cases hk : k0 = k
    · subst hk
      simp [assocLookup] at h
      subst h
      exact List.mem_cons_self _ _
    · simp [assocLookup, hk] at h
      exact List.mem_cons_of_mem _ (ih h)

theorem assocLookup_append_of_some {α : Type} (st l : List (String × α))
    (k : String) (v : α) (h : assocLookup st k = some v) :
    assocLookup (st ++ l) k = some v := by
  induction st with
  | nil => simp [assocLookup] at h
  | cons hd tl ih =>
    obtain ⟨k0, v0⟩ := hd
    by_cases hk : k0 = k
    · subst hk
      simp_all [assocLookup]
    · simp_all [assocLookup, hk]

theorem assocLookup_append_self {α : Type} (st : List (String × α))
    (k : String) (v : α) (h : assocLookup st k = none) :
    assocLookup (st ++ [(k, v)]) k = some v := by
  induction st with
  | nil => simp [assocLookup]
  | cons hd tl ih =>
    obtain ⟨k0, v0⟩ := hd
    by_cases hk : k0 = k
    · simp [assocLookup, hk] at h
    · simp_all [assocLookup, hk]

theorem getSourceAsset_val (cfg : Config) (env : Env) (st : SrcCache)
    (p : String) (hC : CacheOK cfg env st) :
    (getSourceAsset cfg env st p).1 =
      valueOf cfg env (pathResolve cfg.basedir p) ∧
    CacheOK cfg env (getSourceAsset cfg env st p).2.1 := by
  unfold getSourceAsset
  cases hl : assocLookup st (pathResolve cfg.basedir p) with
  | some r =>
    simp only [hl]
    refine ⟨hC _ _ (assocLookup_mem _ _ _ hl), hC⟩
  | none =>
    simp only [hl]
    refine ⟨rfl, ?_⟩
    intro k0 r0 hmem
    rcases List.mem_append.1 hmem with hold | hnew
    · exact hC _ _ hold
    · simp at hnew
      obtain ⟨hk, hr⟩ := hnew
      subst hk
      subst hr
      rfl

theorem computeSourceAsset_ok_shape (cfg : Config) (env : Env)
    (p : String) (a : SourceAsset)
    (h : (computeSourceAsset cfg env p).1 = .ok a) :
    a.path = p ∧ (extractRequires a.body = [] → a.dependencies = []) := by
  unfold computeSourceAsset at h
  cases hck : assocLookup cfg.compilers (extname p) with
  | none => rw [hck] at h; simp at h
  | some ck =>
    rw [hck] at h
    cases hak : cfg.analyzer with
    | none => rw [hak] at h; simp at h
    | some ak =>
      rw [hak] at h
      cases ck
      cases hf : env.files p with
      | none => simp [runCompiler, hf] at h
      | some d =>
        simp only [runCompiler, hf] at h
        cases ak
        simp only [runAnalyzer] at h
        by_cases hids : extractRequires d = []
        · simp only [hids, if_pos] at h
          simp at h
          subst h
          exact ⟨rfl, fun _ => rfl⟩
        · simp only [hids, if_neg, if_false] at h
          cases hm : (extractRequires d).mapM (fun id =>
              match packagerResolve cfg env id
                  (dirname (SourceAsset.mk p d []).path) with
              | some q => Except.ok q
              | none => Except.error (Err.resolution id)) with
          | error e => rw [hm] at h; simp at h
          | ok paths =>
            rw [hm] at h
            simp at h
            subst h
            refine ⟨rfl, ?_⟩
            intro hreq
            exact absurd hreq hids

theorem valueOf_ok_files (cfg : Config) (env : Env) (p : String)
    (a : SourceAsset) (h : valueOf cfg env p = .ok a) :
    ∃ d, env.files p = some d := by
  unfold valueOf computeSourceAsset at h
  cases hck : assocLookup cfg.compilers (extname p) with
  | none => rw [hck] at h; simp at h
  | some ck =>
    rw [hck] at h
    cases hak : cfg.analyzer with
    | none => rw [hak] at h; simp at h
    | some ak =>
      rw [hak] at h
      cases ck
      cases hf : env.files p with
      | none => simp [runCompiler, hf] at h
      | some d => exact ⟨d, rfl⟩

theorem pathResolve_abs (base p : String) (h : isAbs base = true) :
    isAbs (pathResolve base p) = true := by
  unfold pathResolve
  split
  · assumption
  · unfold isAbs at h ⊢
    cases hb : base.data with
    | nil => rw [hb] at h; simp at h
    | cons c cs =>
      rw [hb] at h
      have hc : c = '/' := by
        by_contra hne
        have : (match c :: cs with
            | '/' :: _ => true
            | _ => false) = false := by
          cases c
          simp_all [hne]
        rw [this] at h
        simp at h
      subst hc
      show (match (base ++ "/" ++ p).data with
        | '/' :: _ => true
        | _ => false) = true
      have : (base ++ "/" ++ p).data = base.data ++ ("/" ++ p).data := by
        simp [String.data_append]
      rw [this, hb]
      rfl

theorem expandDependencies_succ (cfg : Config) (env : Env) (f : Nat)
    (st : SrcCache) (seen : List (Option SourceAsset))
    (exp : List SourceAsset) (deps : List (Option SourceAsset)) :
    expandDependencies cfg env (f + 1) st seen exp deps =
      expandLoop cfg env (expandDependencies cfg env f) st seen exp deps := rfl

theorem expandLoop_nil (cfg : Config) (env : Env) (R) (st : SrcCache)
    (seen : List (Option SourceAsset)) (exp : List SourceAsset) :
    expandLoop cfg env R st seen exp [] = (.ok (seen, exp), st, []) := rfl

theorem expandLoop_cons_seen (cfg : Config) (env : Env) (R) (st : SrcCache)
    (seen : List (Option SourceAsset)) (exp : List SourceAsset)
    (x : Option SourceAsset) (rest : List (Option SourceAsset))
    (h : x ∈ seen) :
    expandLoop cfg env R st seen exp (x :: rest) =
      expandLoop cfg env R st seen exp rest := by
  simp [expandLoop, h]

theorem expandLoop_cons_none (cfg : Config) (env : Env) (R) (st : SrcCache)
    (seen : List (Option SourceAsset)) (exp : List SourceAsset)
    (rest : List (Option SourceAsset))
    (h : (none : Option SourceAsset) ∉ seen) :
    expandLoop cfg env R st seen exp (none :: rest) =
      (.thrown .typeError, st, []) := by
  simp [expandLoop, h]

theorem expandLoop_cons_leaf (cfg : Config) (env : Env) (R) (st : SrcCache)
    (seen : List (Option SourceAsset)) (exp : List SourceAsset)
    (a : SourceAsset) (rest : List (Option SourceAsset))
    (h : some a ∉ seen) (hl : a.dependencies = []) :
    expandLoop cfg env R st seen exp (some a :: rest) =
      expandLoop cfg env R st (seen ++ [some a]) (exp ++ [a]) rest := by
  simp [expandLoop, h, hl]

theorem expandLoop_cons_node (cfg : Config) (env : Env) (R) (st : SrcCache)
    (seen : List (Option SourceAsset)) (exp : List SourceAsset)
    (a : SourceAsset) (rest : List (Option SourceAsset))
    (h : some a ∉ seen) (hl : ¬ a.dependencies = []) :
    expandLoop cfg env R st seen exp (some a :: rest) =
      match mapSourceAssets cfg env st a.dependencies with
      | (assets, st1, e1) =>
        match R st1 (seen ++ [some a]) exp assets with
        | (.ok (seen2, exp2), st2, e2) =>
          let out := expandLoop cfg env R st2 seen2 (exp2 ++ [a]) rest
          (out.1, out.2.1, e1 ++ e2 ++ out.2.2)
        | (bad, st2, e2) => (bad, st2, e1 ++ e2) := by
  simp [expandLoop, h, hl]

theorem computeSourceAsset_evs (cfg : Config) (env : Env) (p : String) :
    ((computeSourceAsset cfg env p).2).all isSrcEv = true := by
  unfold computeSourceAsset
  cases assocLookup cfg.compilers (extname p) with
  | none => rfl
  | some ck =>
    cases cfg.analyzer with
    | none => rfl
    | some ak =>
      simp only []
      rcases hc : runCompiler ck env ⟨p, "", []⟩ with e | a1
      · simp only [hc]; rfl
      · simp only [hc]
        rcases ha : runAnalyzer ak cfg env a1 with e | a2
        · simp only [ha]; rfl
        · simp only [ha]; rfl

theorem getSourceAsset_evs (cfg : Config) (env : Env) (st : SrcCache)
    (p : String) :
    ((getSourceAsset cfg env st p).2.2).all isSrcEv = true := by
  unfold getSourceAsset
  cases hl : assocLookup st (pathResolve cfg.basedir p) with
  | some r => simp only [hl]; rfl
  | none => simp only [hl]; exact computeSourceAsset_evs cfg env _

theorem mapSourceAssets_evs (cfg : Config) (env : Env) :
    ∀ (paths : List String) (st : SrcCache),
      ((mapSourceAssets cfg env st paths).2.2).all isSrcEv = true := by
  intro paths
  induction paths with
  | nil => intro st; rfl
  | cons q rest ih =>
    intro st
    have hg := getSourceAsset_evs cfg env st q
    rcases hq : getSourceAsset cfg env st q with ⟨r, st1, e1⟩
    rw [hq] at hg
    cases r with
    | ok a =>
      simp only [mapSourceAssets, hq]
      simp [List.all_append, hg, ih st1]
    | error e =>
      simp only [mapSourceAssets, hq]
      exact hg

theorem expandLoop_evs (cfg : Config) (env : Env) (R)
    (hR : ∀ st seen exp deps, ((R st seen exp deps).2.2).all isSrcEv = true) :
    ∀ (deps : List (Option SourceAsset)) (st : SrcCache) seen exp,
      ((expandLoop cfg env R st seen exp deps).2.2).all isSrcEv = true := by
  intro deps
  induction deps with
  | nil => intro st seen exp; rfl
  | cons x rest ih =>
    intro st seen exp
    by_cases hx : x ∈ seen
    · rw [expandLoop_cons_seen cfg env R st seen exp x rest hx]
      exact ih st seen exp
    · cases x with
      | none => rw [expandLoop_cons_none cfg env R st seen exp rest hx]; rfl
      | some a =>
        by_cases hl : a.dependencies = []
        · rw [expandLoop_cons_leaf cfg env R st seen exp a rest hx hl]
          exact ih st _ _
        · rw [expandLoop_cons_node cfg env R st seen exp a rest hx hl]
          have hm := mapSourceAssets_evs cfg env a.dependencies st
          rcases hmq : mapSourceAssets cfg env st a.dependencies with
            ⟨assets, st1, e1⟩
          rw [hmq] at hm
          have hr := hR st1 (seen ++ [some a]) exp assets
          rcases hrq : R st1 (seen ++ [some a]) exp assets with ⟨r2, st2, e2⟩
          rw [hrq] at hr
          simp only [List.all_eq_true] at hm hr
          cases r2 with
          | ok pr =>
            obtain ⟨seen2, exp2⟩ := pr
            simp only [hmq, hrq]
            have hrest := ih st2 seen2 (exp2 ++ [a])
            simp only [List.all_eq_true] at hrest ⊢
            intro x hx
            simp only [List.mem_append] at hx
            rcases hx with (hx | hx) | hx
            · exact hm x hx
            · exact hr x hx
            · exact hrest x hx
          | err e =>
            simp only [hmq, hrq]
            simp only [List.all_eq_true]
            intro x hx
            simp only [List.mem_append] at hx
            rcases hx with hx | hx
            · exact hm x hx
            · exact hr x hx
          | thrown e =>
            simp only [hmq, hrq]
            simp only [List.all_eq_true]
            intro x hx
            simp only [List.mem_append] at hx
            rcases hx with hx | hx
            · exact hm x hx
            · exact hr x hx
          | fuelOut =>
            simp only [hmq, hrq]
            simp only [List.all_eq_true]
            intro x hx
            simp only [List.mem_append] at hx
            rcases hx with hx | hx
            · exact hm x hx
            · exact hr x hx

theorem expandDependencies_evs (cfg : Config) (env : Env) :
    ∀ (fuel : Nat) (st : SrcCache) seen exp deps,
      ((expandDependencies cfg env fuel st seen exp deps).2.2).all isSrcEv
        = true := by
  intro fuel
  induction fuel with
  | zero => intro st seen exp deps; rfl
  | succ f ih =>
    intro st seen exp deps
    rw [expandDependencies_succ]
    exact expandLoop_evs cfg env _ (fun a b c d => ih a b c d) deps st seen exp

theorem resolveMains_evs (cfg : Config) (env : Env) :
    ∀ (ms : List String) (st : SrcCache),
      ((resolveMains cfg env st ms).2.2).all isSrcEv = true := by
  intro ms
  induction ms with
  | nil => intro st; rfl
  | cons m rest ih =>
    intro st
    unfold resolveMains
    cases packagerResolve cfg env m cfg.basedir with
    | none => rfl
    | some p =>
      have hg := getSourceAsset_evs cfg env st p
      rcases hq : getSourceAsset cfg env st p with ⟨r, st1, e1⟩
      rw [hq] at hg
      simp only [hq]
      cases r with
      | error e => simpa using hg
      | ok a =>
        have hrest := ih st1
        rcases hrq : resolveMains cfg env st1 rest with ⟨r2, st2, e2⟩
        rw [hrq] at hrest
        simp only [hrq]
        simp only [List.all_eq_true] at hg hrest
        cases r2 <;>
          (simp only [List.all_eq_true]
           intro x hx
           simp only [List.mem_append] at hx
           rcases hx with hx | hx
           · exact hg x hx
           · exact hrest x hx)

theorem remaining_nil (U : List SourceAsset) : remaining U [] = U.length := by
  unfold remaining
  rw [List.filter_eq_self.2 (fun a _ => by simp)]

theorem remaining_mono (U : List SourceAsset)
    (s1 s2 : List (Option SourceAsset)) (h : ∀ x, x ∈ s1 → x ∈ s2) :
    remaining U s2 ≤ remaining U s1 := by
  induction U with
  | nil => simp [remaining]
  | cons u U ih =>
    simp only [remaining, List.filter_cons] at ih ⊢
    by_cases h2 : some u ∈ s2
    · by_cases h1 : some u ∈ s1
      · simp only [h2, h1, not_true_eq_false, decide_False]
        simpa using ih
      · simp only [h2, not_true_eq_false, decide_False, h1,
          not_false_eq_true, decide_True, List.length_cons, if_true,
          if_false, Bool.false_eq_true]
        omega
    · have hn1 : some u ∉ s1 := fun hc => h2 (h _ hc)
      simp only [h2, hn1, not_false_eq_true, decide_True, if_true,
        List.length_cons]
      omega

theorem remaining_push_lt (U : List SourceAsset) (a : SourceAsset)
    (seen : List (Option SourceAsset)) (ha : a ∈ U) (hs : some a ∉ seen) :
    remaining U (seen ++ [some a]) < remaining U seen := by
  induction U with
  | nil => simp at ha
  | cons u U ih =>
    by_cases hu : u = a
    · subst hu
      have hmem : some u ∈ seen ++ [some u] := by simp
      simp only [remaining, List.filter_cons, hmem, hs, not_true_eq_false,
        decide_False, not_false_eq_true, decide_True, if_true, if_false,
        Bool.false_eq_true, List.length_cons]
      have hle : remaining U (seen ++ [some u]) ≤ remaining U seen :=
        remaining_mono U seen (seen ++ [some u])
          (fun x hx => List.mem_append_left _ hx)
      simp only [remaining] at hle
      omega
    · have haU : a ∈ U := by
        rcases List.mem_cons.1 ha with h | h
        · exact absurd h.symm hu
        · exact h
      have hiu := ih haU
      simp only [remaining, List.filter_cons] at hiu ⊢
      by_cases h1 : some u ∈ seen
      · have h2 : some u ∈ seen ++ [some a] := List.mem_append_left _ h1
        simp only [h1, h2, not_true_eq_false, decide_False, if_false,
          Bool.false_eq_true]
        exact hiu
      · have h2 : some u ∉ seen ++ [some a] := by
          simp only [List.mem_append, List.mem_singleton, Option.some.injEq]
          rintro (hc | hc)
          · exact h1 hc
          · exact hu hc
        simp only [h1, h2, not_false_eq_true, decide_True, if_true,
          List.length_cons]
        omega

theorem mapSourceAssets_ok (cfg : Config) (env : Env) :
    ∀ (paths : List String) (st : SrcCache),
      CacheOK cfg env st →
      (∀ q, q ∈ paths →
        ∃ b, valueOf cfg env (pathResolve cfg.basedir q) = .ok b) →
      CacheOK cfg env (mapSourceAssets cfg env st paths).2.1 ∧
      (∀ x, x ∈ (mapSourceAssets cfg env st paths).1 →
        ∃ b q, q ∈ paths ∧ x = some b ∧
          valueOf cfg env (pathResolve cfg.basedir q) = .ok b) := by
  intro paths
  induction paths with
  | nil =>
    intro st hC _
    exact ⟨hC, by simp [mapSourceAssets]⟩
  | cons q rest ih =>
    intro st hC hok
    obtain ⟨b, hb⟩ := hok q (List.mem_cons_self _ _)
    have hval := getSourceAsset_val cfg env st q hC
    rcases hq : getSourceAsset cfg env st q with ⟨r, st1, e1⟩
    rw [hq] at hval
    have hr : r = .ok b := by
      have := hval.1
      simp only at this
      rw [this, hb]
    subst hr
    have hC1 : CacheOK cfg env st1 := by
      have := hval.2
      simpa using this
    have hrest := ih st1 hC1
      (fun q' hq' => hok q' (List.mem_cons_of_mem _ hq'))
    constructor
    · simp only [mapSourceAssets, hq]
      exact hrest.1
    · intro x hx
      simp only [mapSourceAssets, hq] at hx
      rcases List.mem_cons.1 hx with hhd | htl
      · exact ⟨b, q, List.mem_cons_self _ _, hhd, hb⟩
      · obtain ⟨b', q', hq', hxb, hvb⟩ := hrest.2 x htl
        exact ⟨b', q', List.mem_cons_of_mem _ hq', hxb, hvb⟩

theorem expand_total (cfg : Config) (env : Env) (U : List SourceAsset)
    (hU : ∀ p a, valueOf cfg env p = .ok a → a ∈ U)
    (hdeps : ∀ a, a ∈ U → ∀ q, q ∈ a.dependencies →
      ∃ b, valueOf cfg env (pathResolve cfg.basedir q) = .ok b) :
    ∀ (fuel : Nat) (deps : List (Option SourceAsset)) (st : SrcCache)
      (seen : List (Option SourceAsset)) (expanded : List SourceAsset),
      CacheOK cfg env st →
      (∀ x, x ∈ deps → ∃ a, x = some a ∧ a ∈ U) →
      remaining U seen < fuel →
      ∃ seen1 expanded1 st1 evs,
        expandDependencies cfg env fuel st seen expanded deps =
          (.ok (seen1, expanded1), st1, evs) ∧
        (∀ x, x ∈ seen → x ∈ seen1) ∧ CacheOK cfg env st1 := by
  intro fuel
  induction fuel with
  | zero =>
    intro deps st seen expanded _ _ hrem
    exact absurd hrem (Nat.not_lt_zero _)
  | succ f ihf =>
    intro deps
    induction deps with
    | nil =>
      intro st seen expanded hC _ _
      exact ⟨seen, expanded, st, [], rfl, fun x h => h, hC⟩
    | cons x rest ihd =>
      intro st seen expanded hC hdep hrem
      by_cases hseen : x ∈ seen
      · rw [expandDependencies_succ,
          expandLoop_cons_seen cfg env _ st seen expanded x rest hseen,
          ← expandDependencies_succ]
        exact ihd st seen expanded hC
          (fun y hy => hdep y (List.mem_cons_of_mem _ hy)) hrem
      · obtain ⟨a, hxa, haU⟩ := hdep x (List.mem_cons_self _ _)
        subst hxa
        by_cases hleaf : a.dependencies = []
        · rw [expandDependencies_succ,
            expandLoop_cons_leaf cfg env _ st seen expanded a rest hseen hleaf,
            ← expandDependencies_succ]
          have hrem1 : remaining U (seen ++ [some a]) < f + 1 :=
            Nat.lt_of_le_of_lt
              (remaining_mono U seen (seen ++ [some a])
                (fun y hy => List.mem_append_left _ hy)) hrem
          obtain ⟨seen1, expanded1, st1, evs, heq, hsub, hC1⟩ :=
            ihd st (seen ++ [some a]) (expanded ++ [a]) hC
              (fun y hy => hdep y (List.mem_cons_of_mem _ hy)) hrem1
          exact ⟨seen1, expanded1, st1, evs, heq,
            fun y hy => hsub y (List.mem_append_left _ hy), hC1⟩
        · rcases hm : mapSourceAssets cfg env st a.dependencies with
            ⟨assets, st1, e1⟩
          have hmok := mapSourceAssets_ok cfg env a.dependencies st hC
            (fun q hq => hdeps a haU q hq)
          rw [hm] at hmok
          simp only at hmok
          have hdepA : ∀ y, y ∈ assets → ∃ b, y = some b ∧ b ∈ U := by
            intro y hy
            obtain ⟨b, q, _, hyb, hvb⟩ := hmok.2 y hy
            exact ⟨b, hyb, hU _ _ hvb⟩
          have hremA : remaining U (seen ++ [some a]) < f := by
            have h1 : remaining U (seen ++ [some a]) < remaining U seen :=
              remaining_push_lt U a seen haU hseen
            omega
          obtain ⟨seen2, expanded2, st2, evs2, heq2, hsub2, hC2⟩ :=
            ihf assets st1 (seen ++ [some a]) expanded hmok.1 hdepA hremA
          have hremR : remaining U seen2 < f + 1 := by
            have hle : remaining U seen2 ≤ remaining U (seen ++ [some a]) :=
              remaining_mono U (seen ++ [some a]) seen2 hsub2
            omega
          obtain ⟨seen3, expanded3, st3, evs3, heq3, hsub3, hC3⟩ :=
            ihd st2 seen2 (expanded2 ++ [a]) hC2
              (fun y hy => hdep y (List.mem_cons_of_mem _ hy)) hremR
          refine ⟨seen3, expanded3, st3, e1 ++ evs2 ++ evs3, ?_, ?_, hC3⟩
          · rw [expandDependencies_succ,
              expandLoop_cons_node cfg env _ st seen expanded a rest
                hseen hleaf, hm]
            simp only []
            rw [heq2]
            rw [expandDependencies_succ] at heq3
            simp only [heq3, List.append_assoc]
          · intro y hy
            exact hsub3 y (hsub2 y (List.mem_append_left _ hy))

theorem runLinker_evs (lk : LinkerK) (cfg : Config) (env : Env)
    (fuel : Nat) (st : SrcCache) (ca : CompositeAsset) :
    ((runLinker lk cfg env fuel st ca).2.2).all isSrcEv = true := by
  cases lk
  unfold runLinker
  have hx := expandDependencies_evs cfg env fuel st [] [] (ca.assets.map some)
  rcases hq : expandDependencies cfg env fuel st [] [] (ca.assets.map some)
    with ⟨r, st1, e1⟩
  rw [hq] at hx
  cases r with
  | ok pr => obtain ⟨seen1, exp1⟩ := pr; simpa using hx
  | err e => simpa using hx
  | thrown e => simpa using hx
  | fuelOut => simpa using hx

theorem buildCompute_ok_evs (cfg : Config) (env : Env) (fuel : Nat)
    (st : SrcCache) (a : CompositeAsset) (st' : SrcCache) (evs : List Ev)
    (h : buildCompute cfg env fuel st = (.ok a, st', evs)) :
    ∃ e1 e2,
      evs = e1 ++ Ev.link :: e2 ++ (if cfg.minify then [Ev.minify] else []) ∧
      e1.all isSrcEv = true ∧ e2.all isSrcEv = true := by
  unfold buildCompute at h
  cases hmn : cfg.main with
  | none => rw [hmn] at h; simp at h
  | some ms =>
    rw [hmn] at h
    simp only [] at h
    revert h
    generalize (match ms with | MainSpec.one s => [s] | MainSpec.many l => l)
      = mains
    intro h
    have hre := resolveMains_evs cfg env mains st
    rcases hrm : resolveMains cfg env st mains with ⟨r1, st1, e1⟩
    rw [hrm] at h hre
    cases r1 with
    | err e => simp at h
    | thrown e => simp at h
    | fuelOut => simp at h
    | ok assets =>
      simp only [] at h
      cases hlk : cfg.linker with
      | none => rw [hlk] at h; simp at h
      | some lk =>
        rw [hlk] at h
        simp only [] at h
        have hle := runLinker_evs lk cfg env fuel st1
          ⟨cfg.path, assets, "", none⟩
        rcases hrl : runLinker lk cfg env fuel st1
            ⟨cfg.path, assets, "", none⟩ with ⟨r2, st2, e2⟩
        rw [hrl] at h hle
        cases r2 with
        | err e => simp at h
        | thrown e => simp at h
        | fuelOut => simp at h
        | ok ca1 =>
          simp only [] at h hle hre
          cases hmin : cfg.minify with
          | false =>
            rw [hmin] at h
            simp only [if_false, Bool.false_eq_true] at h
            refine ⟨e1, e2, ?_, hre, hle⟩
            injection h with h1 h23
            injection h23 with h2 h3
            subst h3
            simp
          | true =>
            rw [hmin] at h
            simp only [if_true] at h
            cases hmf : cfg.minifier with
            | none => rw [hmf] at h; simp at h
            | some mk =>
              rw [hmf] at h
              cases mk
              simp only [runMinifier] at h
              refine ⟨e1, e2, ?_, hre, hle⟩
              injection h with h1 h23
              injection h23 with h2 h3
              subst h3
              simp

theorem srcEv_cases (x : Ev) (h : isSrcEv x = true) :
    (∃ p, x = Ev.compile p) ∨ (∃ p, x = Ev.analyze p) := by
  cases x with
  | compile p => exact Or.inl ⟨p, rfl⟩
  | analyze p => exact Or.inr ⟨p, rfl⟩
  | link => simp [isSrcEv] at h
  | minify => simp [isSrcEv] at h
  | post i => simp [isSrcEv] at h
  | fsWrite a b c => simp [isSrcEv] at h

theorem buildCompute_evs_shape (cfg : Config) (env : Env) (fuel : Nat)
    (st : SrcCache) :
    ∀ x, x ∈ (buildCompute cfg env fuel st).2.2 →
      isSrcEv x = true ∨ x = Ev.link ∨ x = Ev.minify := by
  unfold buildCompute
  cases hmn : cfg.main with
  | none => intro x hx; simp at hx
  | some ms =>
    simp only []
    generalize (match ms with | MainSpec.one s => [s] | MainSpec.many l => l)
      = mains
    have hre := resolveMains_evs cfg env mains st
    rcases hrm : resolveMains cfg env st mains with ⟨r1, st1, e1⟩
    rw [hrm] at hre
    simp only [List.all_eq_true] at hre
    cases r1 with
    | err e => intro x hx; exact Or.inl (hre x hx)
    | thrown e => intro x hx; exact Or.inl (hre x hx)
    | fuelOut => intro x hx; exact Or.inl (hre x hx)
    | ok assets =>
      simp only []
      cases hlk : cfg.linker with
      | none => intro x hx; exact Or.inl (hre x hx)
      | some lk =>
        simp only []
        have hle := runLinker_evs lk cfg env fuel st1
          ⟨cfg.path, assets, "", none⟩
        rcases hrl : runLinker lk cfg env fuel st1
            ⟨cfg.path, assets, "", none⟩ with ⟨r2, st2, e2⟩
        rw [hrl] at hle
        simp only [List.all_eq_true] at hle
        have hclose : ∀ x, x ∈ e1 ++ Ev.link :: e2 →
            isSrcEv x = true ∨ x = Ev.link ∨ x = Ev.minify := by
          intro x hx
          rcases List.mem_append.1 hx with hx | hx
          · exact Or.inl (hre x hx)
          · rcases List.mem_cons.1 hx with hx | hx
            · exact Or.inr (Or.inl hx)
            · exact Or.inl (hle x hx)
        cases r2 with
        | err e => intro x hx; exact hclose x hx
        | thrown e => intro x hx; exact hclose x hx
        | fuelOut => intro x hx; exact hclose x hx
        | ok ca1 =>
          simp only []
          cases hmin : cfg.minify with
          | false =>
            intro x hx
            simp only [Bool.false_eq_true, if_false] at hx
            exact hclose x hx
          | true =>
            simp only [if_true]
            cases hmf : cfg.minifier with
            | none => intro x hx; exact hclose x hx
            | some mk =>
              cases mk
              simp only [runMinifier]
              intro x hx
              rcases List.mem_append.1 hx with hx | hx
              · exact hclose x hx
              · simp at hx
                exact Or.inr (Or.inr hx)

theorem countP_zero_of_src (l : List Ev) (p : Ev → Bool)
    (hl : l.all isSrcEv = true) (hp : ∀ e, isSrcEv e = true → p e = false) :
    l.countP p = 0 := by
  rw [List.countP_eq_zero]
  intro a ha
  simp only [List.all_eq_true] at hl
  rw [hp a (hl a ha)]
  simp

/-- Claim C1: for every path, `getSourceAsset` computes the
compiled-and-analyzed `SourceAsset` at most once per cache lifetime: a
call settles the cache entry for the resolved path (on a miss it runs
exactly the compile-then-analyze computation), and afterwards every call
for that path against any cache extending it — in particular the very
cache the call produced, unchanged until `invalidate` — returns the
identical settled result (value *or* error) with no compiler or analyzer
invocation (`[]` events). -/
theorem c1_getSourceAsset_memoized (cfg : Config) (env : Env)
    (st : SrcCache) (p : String) (r : Except Err SourceAsset)
    (st1 : SrcCache) (evs : List Ev)
    (h : getSourceAsset cfg env st p = (r, st1, evs)) :
    (∀ st2 : SrcCache,
      (∀ k v, assocLookup st1 k = some v → assocLookup st2 k = some v) →
      getSourceAsset cfg env st2 p = (r, st2, [])) ∧
    (assocLookup st (pathResolve cfg.basedir p) = none →
      r = (computeSourceAsset cfg env (pathResolve cfg.basedir p)).1 ∧
      evs = (computeSourceAsset cfg env (pathResolve cfg.basedir p)).2) := by
  unfold getSourceAsset at h
  cases hl : assocLookup st (pathResolve cfg.basedir p) with
  | some r0 =>
    simp only [hl] at h
    injection h with h1 h23
    injection h23 with h2 h3
    subst h1
    subst h2
    subst h3
    constructor
    · intro st2 hext
      have hl2 := hext _ _ hl
      unfold getSourceAsset
      simp only [hl2]
    · intro hnone
      exact absurd hnone (by simp)
  | none =>
    simp only [hl] at h
    injection h with h1 h23
    injection h23 with h2 h3
    subst h1
    subst h2
    subst h3
    constructor
    · intro st2 hext
      have hself := assocLookup_append_self st (pathResolve cfg.basedir p)
        (computeSourceAsset cfg env (pathResolve cfg.basedir p)).1 hl
      have hl2 := hext _ _ hself
      unfold getSourceAsset
      simp only [hl2]
    · intro _
      exact ⟨rfl, rfl⟩

/-- Claim C1 witness: a path with no registered compiler; the first call
caches the failure, the second call returns the identical cached error
with no plugin invocation. -/
theorem c1_witness :
    getSourceAsset baseCfg singleEnv
        [("/r/a.txt", Except.error (Err.noCompiler "/r/a.txt"))] "a.txt" =
      (Except.error (Err.noCompiler "/r/a.txt"),
       [("/r/a.txt", Except.error (Err.noCompiler "/r/a.txt"))], []) :=
  (c1_getSourceAsset_memoized baseCfg singleEnv [] "a.txt"
      (Except.error (Err.noCompiler "/r/a.txt"))
      [("/r/a.txt", Except.error (Err.noCompiler "/r/a.txt"))] []
      (by rfl)).1
    [("/r/a.txt", Except.error (Err.noCompiler "/r/a.txt"))]
    (fun _ _ hv => hv)

/-- Claim C3: closure expansion terminates on cyclic dependency sets.
Whenever every compilable asset lies in a finite universe `U`, every
dependency of a `U`-asset resolves and compiles (so cycles are allowed:
nothing restricts `U` to be acyclic), the cache is coherent and the root
list consists of `U`-assets, the expansion completes normally — it
neither throws nor exhausts any recursion depth up to `U.length + 1`,
because each asset is pushed to `seen` before its dependencies are
recursed into, so a re-encountered asset is skipped. -/
theorem c3_cyclic_expansion_terminates (cfg : Config) (env : Env)
    (U : List SourceAsset) (st : SrcCache)
    (roots : List (Option SourceAsset)) (fuel : Nat)
    (hU : ∀ p a, valueOf cfg env p = .ok a → a ∈ U)
    (hdeps : ∀ a, a ∈ U → ∀ q, q ∈ a.dependencies →
      ∃ b, valueOf cfg env (pathResolve cfg.basedir q) = .ok b)
    (hC : CacheOK cfg env st)
    (hroots : ∀ x, x ∈ roots → ∃ a, x = some a ∧ a ∈ U)
    (hfuel : U.length < fuel) :
    ∃ seen1 expanded1 st1 evs,
      expandDependencies cfg env fuel st [] [] roots =
        (.ok (seen1, expanded1), st1, evs) := by
  have hrem : remaining U ([] : List (Option SourceAsset)) < fuel := by
    rw [remaining_nil]
    exact hfuel
  obtain ⟨seen1, expanded1, st1, evs, heq, _, _⟩ :=
    expand_total cfg env U hU hdeps fuel roots st [] [] hC hroots hrem
  exact ⟨seen1, expanded1, st1, evs, heq⟩

/-- Claim C3 witness: the mutual cycle `a ↔ b` expands without throwing
and without running out of depth. -/
theorem c3_witness :
    ∃ seen1 expanded1 st1 evs,
      expandDependencies baseCfg cycleEnv 9 [] [] [] [some cyA] =
        (.ok (seen1, expanded1), st1, evs) := by
  refine c3_cyclic_expansion_terminates baseCfg cycleEnv [cyA, cyB] []
    [some cyA] 9 ?_ ?_ ?_ ?_ (by decide)
  · intro p a h
    obtain ⟨d, hd⟩ := valueOf_ok_files baseCfg cycleEnv p a h
    by_cases h1 : p = "/r/a.js"
    · subst h1
      have : valueOf baseCfg cycleEnv "/r/a.js" = .ok cyA := by rfl
      rw [this] at h
      injection h with h2
      subst h2
      simp
    · by_cases h2 : p = "/r/b.js"
      · subst h2
        have : valueOf baseCfg cycleEnv "/r/b.js" = .ok cyB := by rfl
        rw [this] at h
        injection h with h3
        subst h3
        simp
      · exfalso
        have : cycleEnv.files p = none := by
          show (if p = "/r/a.js" then some "//= require ./b\na;"
            else if p = "/r/b.js" then some "//= require ./a\nb;"
            else none) = none
          rw [if_neg h1, if_neg h2]
        rw [this] at hd
        exact Option.noConfusion hd
  · intro a ha q hq
    rcases List.mem_cons.1 ha with h | h
    · subst h
      have : q = "/r/b.js" := by
        have : cyA.dependencies = ["/r/b.js"] := rfl
        rw [this] at hq
        simpa using hq
      subst this
      exact ⟨cyB, by rfl⟩
    · rcases List.mem_cons.1 h with h | h
      · subst h
        have : q = "/r/a.js" := by
          have : cyB.dependencies = ["/r/a.js"] := rfl
          rw [this] at hq
          simpa using hq
        subst this
        exact ⟨cyA, by rfl⟩
      · simp at h
  · intro k r hmem
    simp at hmem
  · intro x hx
    rcases List.mem_cons.1 hx with h | h
    · exact ⟨cyA, h, by simp⟩
    · simp at h

/-- Claim C4 (code bug): with `minify: true` and no minifier configured
(over a one-file project whose `main` resolves and compiles), `build`
does *not* deliver a configuration error to its callback: the validation
block (lines 234-240) stores the error in a local that is never checked,
the waterfall runs, and invoking the missing minifier throws a
`TypeError` — the result is a crash (`Res.thrown`), never `Res.err`. -/
theorem c4_missing_minifier_crashes_not_errs :
    build cfgMinNoMinifier singleEnv 9 ⟨[], none⟩ =
      (Res.thrown .typeError,
       ⟨[("/r/a.js", Except.ok ⟨"/r/a.js", "a;", []⟩)], none⟩,
       [Ev.compile "/r/a.js", Ev.analyze "/r/a.js", Ev.link]) ∧
    ∀ e, (build cfgMinNoMinifier singleEnv 9 ⟨[], none⟩).1 ≠ Res.err e := by
  refine ⟨by rfl, ?_⟩
  intro e h
  rw [show (build cfgMinNoMinifier singleEnv 9 ⟨[], none⟩).1 =
      Res.thrown RtErr.typeError from rfl] at h
  exact Res.noConfusion h

/-- Claim C5 (code bug): a successful `build` with a configured
postprocessor sequence performs compile, analyze, link and minify — and
never a single postprocessor invocation: `postprocessors` is read and
normalized in `build` (lines 231, 244) but the waterfall (lines 246-272)
has no postprocessing step. -/
theorem c5_postprocessors_never_invoked :
    cfgPost.postprocessors = some [()] ∧
    build cfgPost singleEnv 9 ⟨[], none⟩ =
      (Res.ok ⟨"/out/app.js", [⟨"/r/a.js", "a;", []⟩], "a;", none⟩,
       ⟨[("/r/a.js", Except.ok ⟨"/r/a.js", "a;", []⟩)],
        some (Except.ok ⟨"/out/app.js", [⟨"/r/a.js", "a;", []⟩], "a;", none⟩)⟩,
       [Ev.compile "/r/a.js", Ev.analyze "/r/a.js", Ev.link, Ev.minify]) ∧
    ∀ i, Ev.post i ∉ (build cfgPost singleEnv 9 ⟨[], none⟩).2.2 := by
  refine ⟨rfl, by rfl, ?_⟩
  intro i hmem
  rw [show (build cfgPost singleEnv 9 ⟨[], none⟩).2.2 =
      [Ev.compile "/r/a.js", Ev.analyze "/r/a.js", Ev.link, Ev.minify]
      from rfl] at hmem
  simp at hmem

/-- Claim C6 (code bug): when a dependency fails to compile during
closure expansion (`/r/m.js` requires `./x`, whose file is unreadable),
the error is *not* propagated to the linker's callback: the `mapSeries`
completion callback (line 95) ignores `err` and recurses into the result
list containing `undefined`, which throws a `TypeError` reading
`.dependencies` — a crash (`Res.thrown`), never a callback error
(`Res.err`), and the cached failure shows the compile was attempted. -/
theorem c6_dependency_error_crashes_expansion :
    expandDependencies baseCfg failEnv 9 [] [] [] [some mAsset] =
      (Res.thrown .typeError,
       [("/r/x.js", Except.error (Err.io "/r/x.js"))],
       [Ev.compile "/r/x.js"]) ∧
    ∀ e,
      (expandDependencies baseCfg failEnv 9 [] [] [] [some mAsset]).1 ≠
        Res.err e := by
  refine ⟨by rfl, ?_⟩
  intro e h
  rw [show (expandDependencies baseCfg failEnv 9 [] [] [] [some mAsset]).1 =
      Res.thrown RtErr.typeError from rfl] at h
  exact Res.noConfusion h

/-- Claim C7 counterexample: the claim says two `build()` calls without
`invalidate()` invoke "the linker, minifier and postprocessors exactly
once in total".  With a postprocessor configured (`cfgPost`), two
successful builds perform zero postprocessor invocations in total — the
events of both calls together are compile, analyze, link, minify only —
refuting the postprocessor part (the second call also returns the
identical memoized result). -/
theorem c7_counterexample :
    (build cfgPost singleEnv 9 ⟨[], none⟩).2.2 ++
      (build cfgPost singleEnv 9
        (build cfgPost singleEnv 9 ⟨[], none⟩).2.1).2.2 =
      [Ev.compile "/r/a.js", Ev.analyze "/r/a.js", Ev.link, Ev.minify] ∧
    ¬ (((build cfgPost singleEnv 9 ⟨[], none⟩).2.2 ++
        (build cfgPost singleEnv 9
          (build cfgPost singleEnv 9 ⟨[], none⟩).2.1).2.2).countP isPostEv
        = 1) ∧
    cfgPost.postprocessors = some [()] ∧
    (build cfgPost singleEnv 9
        (build cfgPost singleEnv 9 ⟨[], none⟩).2.1).1 =
      (build cfgPost singleEnv 9 ⟨[], none⟩).1 := by
  refine ⟨by rfl, by decide, rfl, by rfl⟩

/-- Claim C7 (amended): calling `build()` twice without an intervening
`invalidate()` makes the second call replay the memoized settlement —
the identical `CompositeAsset` (or the identical error) with no plugin
invocations at all — so across both calls the linker runs exactly once
and the minifier exactly once when `minify` is set; postprocessors are
never invoked (zero times, not once; see the counterexample). -/
theorem c7_build_memoized_amended (cfg : Config) (env : Env) (fuel : Nat)
    (ss : SrcCache) :
    (∀ a ps1 evs,
      build cfg env fuel ⟨ss, none⟩ = (.ok a, ps1, evs) →
      build cfg env fuel ps1 = (.ok a, ps1, []) ∧
      evs.countP (fun e => decide (e = Ev.link)) = 1 ∧
      evs.countP (fun e => decide (e = Ev.minify)) =
        (if cfg.minify then 1 else 0) ∧
      evs.countP isPostEv = 0) ∧
    (∀ e ps1 evs,
      build cfg env fuel ⟨ss, none⟩ = (.err e, ps1, evs) →
      build cfg env fuel ps1 = (.err e, ps1, [])) := by
  have hlink0 : ∀ l : List Ev, l.all isSrcEv = true →
      l.countP (fun e => decide (e = Ev.link)) = 0 := by
    intro l hl
    refine countP_zero_of_src l _ hl ?_
    intro e he
    rcases srcEv_cases e he with ⟨q, hq⟩ | ⟨q, hq⟩ <;> subst hq <;> rfl
  have hmin0 : ∀ l : List Ev, l.all isSrcEv = true →
      l.countP (fun e => decide (e = Ev.minify)) = 0 := by
    intro l hl
    refine countP_zero_of_src l _ hl ?_
    intro e he
    rcases srcEv_cases e he with ⟨q, hq⟩ | ⟨q, hq⟩ <;> subst hq <;> rfl
  have hpost0 : ∀ l : List Ev, l.all isSrcEv = true →
      l.countP isPostEv = 0 := by
    intro l hl
    refine countP_zero_of_src l _ hl ?_
    intro e he
    rcases srcEv_cases e he with ⟨q, hq⟩ | ⟨q, hq⟩ <;> subst hq <;> rfl
  constructor
  · intro a ps1 evs h
    unfold build at h
    simp only [] at h
    rcases hbc : buildCompute cfg env fuel ss with ⟨rb, st1, e1⟩
    rw [hbc] at h
    cases rb with
    | err e => simp at h
    | thrown e => simp at h
    | fuelOut => simp at h
    | ok a1 =>
      simp only [] at h
      injection h with h1 h23
      injection h23 with h2 h3
      injection h1 with h1
      subst h1
      subst h2
      subst h3
      obtain ⟨ea, eb, hevs, hsa, hsb⟩ :=
        buildCompute_ok_evs cfg env fuel ss a1 st1 e1 hbc
      refine ⟨by rfl, ?_, ?_, ?_⟩
      · rw [hevs]
        cases hmf : cfg.minify with
        | false =>
          simp only [Bool.false_eq_true, if_false, List.append_nil]
          simp [List.countP_append, List.countP_cons, hlink0 ea hsa,
            hlink0 eb hsb]
        | true =>
          simp only [if_true]
          simp [List.countP_append, List.countP_cons, hlink0 ea hsa,
            hlink0 eb hsb]
      · rw [hevs]
        cases hmf : cfg.minify with
        | false =>
          simp only [Bool.false_eq_true, if_false, List.append_nil]
          simp [List.countP_append, List.countP_cons, hmin0 ea hsa,
            hmin0 eb hsb]
        | true =>
          simp only [if_true]
          simp [List.countP_append, List.countP_cons, hmin0 ea hsa,
            hmin0 eb hsb]
      · rw [hevs]
        cases hmf : cfg.minify with
        | false =>
          simp only [Bool.false_eq_true, if_false, List.append_nil]
          simp [List.countP_append, List.countP_cons, hpost0 ea hsa,
            hpost0 eb hsb, isPostEv]
        | true =>
          simp only [if_true]
          simp [List.countP_append, List.countP_cons, hpost0 ea hsa,
            hpost0 eb hsb, isPostEv]
  · intro e ps1 evs h
    unfold build at h
    simp only [] at h
    rcases hbc : buildCompute cfg env fuel ss with ⟨rb, st1, e1⟩
    rw [hbc] at h
    cases rb with
    | ok a1 => simp at h
    | thrown e1 => simp at h
    | fuelOut => simp at h
    | err e1 =>
      simp only [] at h
      injection h with h1 h23
      injection h23 with h2 h3
      injection h1 with h1
      subst h1
      subst h2
      subst h3
      rfl

/-- Claim C7 witness: the amended theorem applied to the concrete
one-file, minify-on configuration with a postprocessor. -/
theorem c7_witness :
    build cfgPost singleEnv 9
        ⟨[("/r/a.js", Except.ok ⟨"/r/a.js", "a;", []⟩)],
         some (Except.ok
           ⟨"/out/app.js", [⟨"/r/a.js", "a;", []⟩], "a;", none⟩)⟩ =
      (.ok ⟨"/out/app.js", [⟨"/r/a.js", "a;", []⟩], "a;", none⟩,
       ⟨[("/r/a.js", Except.ok ⟨"/r/a.js", "a;", []⟩)],
        some (Except.ok
          ⟨"/out/app.js", [⟨"/r/a.js", "a;", []⟩], "a;", none⟩)⟩, []) ∧
    [Ev.compile "/r/a.js", Ev.analyze "/r/a.js", Ev.link,
      Ev.minify].countP (fun e => decide (e = Ev.link)) = 1 :=
  have h := (c7_build_memoized_amended cfgPost singleEnv 9 []).1
    ⟨"/out/app.js", [⟨"/r/a.js", "a;", []⟩], "a;", none⟩
    ⟨[("/r/a.js", Except.ok ⟨"/r/a.js", "a;", []⟩)],
     some (Except.ok ⟨"/out/app.js", [⟨"/r/a.js", "a;", []⟩], "a;", none⟩)⟩
    [Ev.compile "/r/a.js", Ev.analyze "/r/a.js", Ev.link, Ev.minify]
    (by rfl)
  ⟨h.1, h.2.1⟩

theorem srcEv_not_fsWrite (x : Ev) (h : isSrcEv x = true) :
    isFsWriteEv x = false := by
  rcases srcEv_cases x h with ⟨q, hq⟩ | ⟨q, hq⟩ <;> subst hq <;> rfl

theorem build_no_fsWrite (cfg : Config) (env : Env) (fuel : Nat)
    (ps : PState) :
    ∀ x, x ∈ (build cfg env fuel ps).2.2 → isFsWriteEv x = false := by
  unfold build
  cases hb : ps.bld with
  | some r =>
    cases r with
    | ok a => intro x hx; simp at hx
    | error e => intro x hx; simp at hx
  | none =>
    have hsh := buildCompute_evs_shape cfg env fuel ps.src
    rcases hbc : buildCompute cfg env fuel ps.src with ⟨rb, st1, e1⟩
    rw [hbc] at hsh
    simp only [] at hsh
    have hclose : ∀ x, x ∈ e1 → isFsWriteEv x = false := by
      intro x hx
      rcases hsh x hx with h | h | h
      · exact srcEv_not_fsWrite x h
      · subst h; rfl
      · subst h; rfl
    cases rb with
    | ok a => intro x hx; exact hclose x hx
    | err e => intro x hx; exact hclose x hx
    | thrown e => intro x hx; exact hclose x hx
    | fuelOut => intro x hx; exact hclose x hx

/-- Claim C8: every `write` call runs `build` first; on a build error
the callback receives exactly that error and nothing is written; on
success the composite body is written to the resolved output path —
defaulting to the packager's configured `path` when no output path (or
an empty one) is given — with `asset.encoding`, defaulting to UTF-8,
and the write outcome (success or filesystem error) is the callback
result.  The second conjunct certifies that the build phase itself never
performs a filesystem write, so a failed build writes no file. -/
theorem c8_write_builds_then_persists (cfg : Config) (env : Env)
    (fuel : Nat) (ps : PState) (outOpt : Option String) :
    write cfg env fuel ps outOpt =
      (match build cfg env fuel ps with
       | (.ok a, ps1, e1) =>
         match env.writeRes (pathResolve env.cwd
             (match outOpt with
              | none => cfg.path
              | some s => if s = "" then cfg.path else s)) with
         | none =>
           (.ok (), ps1, e1 ++ [Ev.fsWrite (pathResolve env.cwd
             (match outOpt with
              | none => cfg.path
              | some s => if s = "" then cfg.path else s)) a.body
             (a.encoding.getD "utf8")])
         | some e =>
           (.err e, ps1, e1 ++ [Ev.fsWrite (pathResolve env.cwd
             (match outOpt with
              | none => cfg.path
              | some s => if s = "" then cfg.path else s)) a.body
             (a.encoding.getD "utf8")])
       | (.err e, ps1, e1) => (.err e, ps1, e1)
       | (.thrown e, ps1, e1) => (.thrown e, ps1, e1)
       | (.fuelOut, ps1, e1) => (.fuelOut, ps1, e1)) ∧
    ∀ x, x ∈ (build cfg env fuel ps).2.2 → isFsWriteEv x = false := by
  constructor
  · unfold write
    rcases hb : build cfg env fuel ps with ⟨r, ps1, e1⟩
    cases r <;> rfl
  · exact build_no_fsWrite cfg env fuel ps

/-- Claim C9: every `SourceAsset` successfully yielded by
`getSourceAsset` (over a coherent cache) has its `path` set to the
absolute resolved path (absolute whenever `basedir` is absolute, which
the constructor guarantees via `PATH.resolve`), and its `dependencies`
are initialized to `[]` and stay `[]` when the analyzer finds no
`//= require` directive — in the typed model `dependencies` is a list by
construction, so closure expansion may read it on every visited asset. -/
theorem c9_source_asset_fields (cfg : Config) (env : Env) (st : SrcCache)
    (p : String) (a : SourceAsset) (st1 : SrcCache) (evs : List Ev)
    (hC : CacheOK cfg env st)
    (h : getSourceAsset cfg env st p = (.ok a, st1, evs)) :
    a.path = pathResolve cfg.basedir p ∧
    (isAbs cfg.basedir = true → isAbs a.path = true) ∧
    (extractRequires a.body = [] → a.dependencies = []) := by
  have hval := getSourceAsset_val cfg env st p hC
  rw [h] at hval
  have hv : (computeSourceAsset cfg env (pathResolve cfg.basedir p)).1 =
      .ok a := by
    have h1 := hval.1
    simp only [] at h1
    exact h1.symm
  have hshape := computeSourceAsset_ok_shape cfg env
    (pathResolve cfg.basedir p) a hv
  refine ⟨hshape.1, ?_, hshape.2⟩
  intro habs
  rw [hshape.1]
  exact pathResolve_abs cfg.basedir p habs

/-- Claim C9 witness: compiling `a.js` against basedir `/r` yields the
asset at absolute path `/r/a.js` with empty dependencies. -/
theorem c9_witness :
    (SourceAsset.mk "/r/a.js" "a;" []).path =
      pathResolve baseCfg.basedir "a.js" ∧
    (isAbs baseCfg.basedir = true →
      isAbs (SourceAsset.mk "/r/a.js" "a;" []).path = true) ∧
    (extractRequires (SourceAsset.mk "/r/a.js" "a;" []).body = [] →
      (SourceAsset.mk "/r/a.js" "a;" []).dependencies = []) :=
  c9_source_asset_fields baseCfg singleEnv [] "a.js"
    ⟨"/r/a.js", "a;", []⟩ [("/r/a.js", Except.ok ⟨"/r/a.js", "a;", []⟩)]
    [Ev.compile "/r/a.js", Ev.analyze "/r/a.js"]
    (fun _ _ hm => absurd hm (List.not_mem_nil _))
    (by rfl)

/-- Claim C10: calling `write` with a single function argument shifts
that argument into the `done` position (lines 288-291), behaves exactly
like `write(undefined, done)`, and therefore uses the packager's
configured path as the output path. -/
theorem c10_single_function_argument (cfg : Config) (env : Env)
    (fuel : Nat) (ps : PState) (f : Nat) :
    writeCall cfg env fuel ps (.fn f) .undef =
      writeCall cfg env fuel ps .undef (.fn f) ∧
    writeCall cfg env fuel ps (.fn f) .undef =
      (some f, write cfg env fuel ps none) :=
  ⟨rfl, rfl⟩

/-- Claim C4 witness: the misconfigured build's outcome is not the
callback error the spec prescribes. -/
theorem c4_witness :
    (build cfgMinNoMinifier singleEnv 9 ⟨[], none⟩).1 ≠
      Res.err Err.noAnalyzer :=
  c4_missing_minifier_crashes_not_errs.2 Err.noAnalyzer

/-- Claim C5 witness: no postprocessor event occurs in the concrete
successful build. -/
theorem c5_witness :
    Ev.post 0 ∉ (build cfgPost singleEnv 9 ⟨[], none⟩).2.2 :=
  c5_postprocessors_never_invoked.2.2 0

/-- Claim C6 witness: the expansion outcome is not the callback error
the spec prescribes. -/
theorem c6_witness :
    (expandDependencies baseCfg failEnv 9 [] [] [] [some mAsset]).1 ≠
      Res.err (Err.io "/r/x.js") :=
  c6_dependency_error_crashes_expansion.2 (Err.io "/r/x.js")

/-- Claim C8 witness: a concrete build event is not a filesystem write. -/
theorem c8_witness :
    isFsWriteEv (Ev.compile "/r/a.js") = false :=
  (c8_write_builds_then_persists cfgPost singleEnv 9 ⟨[], none⟩ none).2
    (Ev.compile "/r/a.js")
    (by
      rw [show (build cfgPost singleEnv 9 ⟨[], none⟩).2.2 =
        [Ev.compile "/r/a.js", Ev.analyze "/r/a.js", Ev.link, Ev.minify]
        from rfl]
      simp)

theorem depFirstAux_concat (cfg : Config) (env : Env) :
    ∀ (l prev : List SourceAsset) (a : SourceAsset),
      DepFirstAux cfg env prev (l ++ [a]) ↔
        (DepFirstAux cfg env prev l ∧
          ∀ b, DependsOn cfg env a b → b ∈ prev ++ l) := by
  intro l
  induction l with
  | nil =>
    intro prev a
    simp [DepFirstAux]
  | cons x l ih =>
    intro prev a
    simp only [List.cons_append, DepFirstAux, List.append_eq]
    rw [ih (prev ++ [x]) a]
    constructor
    · rintro ⟨h1, h2, h3⟩
      refine ⟨⟨h1, h2⟩, ?_⟩
      intro b hb
      have := h3 b hb
      simpa [List.append_assoc] using this
    · rintro ⟨⟨h1, h2⟩, h3⟩
      refine ⟨h1, h2, ?_⟩
      intro b hb
      have := h3 b hb
      simpa [List.append_assoc] using this

theorem depFirstAux_split (cfg : Config) (env : Env) :
    ∀ (l prev : List SourceAsset),
      DepFirstAux cfg env prev l →
      ∀ pre a suf, l = pre ++ a :: suf →
      ∀ b, DependsOn cfg env a b → b ∈ prev ++ pre := by
  intro l
  induction l with
  | nil =>
    intro prev _ pre a suf heq
    exact absurd heq (by simp)
  | cons x l ih =>
    intro prev h pre a suf heq b hb
    cases pre with
    | nil =>
      simp only [List.nil_append, List.cons.injEq] at heq
      obtain ⟨rfl, rfl⟩ := heq
      simpa using h.1 b hb
    | cons p pre2 =>
      simp only [List.cons_append, List.cons.injEq] at heq
      obtain ⟨rfl, heq2⟩ := heq
      have := ih (prev ++ [x]) h.2 pre2 a suf heq2 b hb
      simpa [List.append_assoc] using this

theorem mapSourceAssets_complete (cfg : Config) (env : Env) :
    ∀ (paths : List String) (st : SrcCache),
      CacheOK cfg env st →
      (∀ q, q ∈ paths →
        ∃ b, valueOf cfg env (pathResolve cfg.basedir q) = .ok b) →
      ∀ q, q ∈ paths →
      ∀ b, valueOf cfg env (pathResolve cfg.basedir q) = .ok b →
        some b ∈ (mapSourceAssets cfg env st paths).1 := by
  intro paths
  induction paths with
  | nil => intro st _ _ q hq; simp at hq
  | cons q0 rest ih =>
    intro st hC hok q hq b hb
    obtain ⟨b0, hb0⟩ := hok q0 (List.mem_cons_self _ _)
    have hval := getSourceAsset_val cfg env st q0 hC
    rcases hg : getSourceAsset cfg env st q0 with ⟨r, st1, e1⟩
    rw [hg] at hval
    have hr : r = .ok b0 := by
      have h1 := hval.1
      simp only [] at h1
      rw [h1, hb0]
    subst hr
    have hC1 : CacheOK cfg env st1 := by
      have := hval.2
      simpa using this
    simp only [mapSourceAssets, hg]
    rcases List.mem_cons.1 hq with rfl | hq2
    · have hbb : b = b0 := by
        rw [hb0] at hb
        exact (Except.ok.inj hb).symm
      subst hbb
      exact List.mem_cons_self _ _
    · exact List.mem_cons_of_mem _
        (ih st1 hC1 (fun q2 hqq => hok q2 (List.mem_cons_of_mem _ hqq))
          q hq2 b hb)

theorem nodup_concat {α : Type} (l : List α) (a : α) (h : l.Nodup)
    (ha : a ∉ l) : (l ++ [a]).Nodup := by
  rw [List.nodup_append]
  refine ⟨h, by simp, ?_⟩
  intro x hx
  simp only [List.mem_singleton]
  intro hxa
  subst hxa
  exact ha hx

theorem expand_postorder_master (cfg : Config) (env : Env)
    (U : List SourceAsset) (rank : SourceAsset → Nat)
    (hU : ∀ p a, valueOf cfg env p = .ok a → a ∈ U)
    (hdeps : ∀ a, a ∈ U → ∀ q, q ∈ a.dependencies →
      ∃ b, valueOf cfg env (pathResolve cfg.basedir q) = .ok b)
    (hrank : ∀ a, a ∈ U → ∀ b, DependsOn cfg env a b → rank b < rank a) :
    ∀ (fuel : Nat) (deps : List (Option SourceAsset)) (st : SrcCache)
      (seen : List (Option SourceAsset)) (expanded : List SourceAsset),
      CacheOK cfg env st →
      (∀ x, x ∈ deps → ∃ a, x = some a ∧ a ∈ U) →
      remaining U seen < fuel →
      expanded.Nodup →
      (∀ a2, a2 ∈ expanded → some a2 ∈ seen) →
      DepFirstAux cfg env [] expanded →
      (∀ b, some b ∈ seen → b ∉ expanded →
        ∀ x a2, x ∈ deps → x = some a2 → rank a2 < rank b) →
      ∃ seen1 expanded1 st1 evs,
        expandDependencies cfg env fuel st seen expanded deps =
          (.ok (seen1, expanded1), st1, evs) ∧
        (∀ x, x ∈ seen → x ∈ seen1) ∧
        CacheOK cfg env st1 ∧
        (∃ δ, expanded1 = expanded ++ δ) ∧
        (∀ a2, a2 ∈ expanded1 → a2 ∈ expanded ∨ some a2 ∉ seen) ∧
        (∀ b, some b ∈ seen1 →
          b ∈ expanded1 ∨ (some b ∈ seen ∧ b ∉ expanded)) ∧
        (∀ x a2, x ∈ deps → x = some a2 → a2 ∈ expanded1) ∧
        expanded1.Nodup ∧
        (∀ a2, a2 ∈ expanded1 → some a2 ∈ seen1) ∧
        DepFirstAux cfg env [] expanded1 := by
  intro fuel
  induction fuel with
  | zero =>
    intro deps st seen expanded _ _ hrem
    exact absurd hrem (Nat.not_lt_zero _)
  | succ f ihf =>
    intro deps
    induction deps with
    | nil =>
      intro st seen expanded hC _ _ hnd hins hdf _
      refine ⟨seen, expanded, st, [], rfl, fun x h => h, hC,
        ⟨[], (List.append_nil _).symm⟩, fun a2 h => Or.inl h, ?_,
        fun x a2 hx => absurd hx (List.not_mem_nil _), hnd, hins, hdf⟩
      intro b hb
      by_cases hbe : b ∈ expanded
      · exact Or.inl hbe
      · exact Or.inr ⟨hb, hbe⟩
    | cons x rest ihd =>
      intro st seen expanded hC hdep hrem hnd hins hdf hp7
      by_cases hseen : x ∈ seen
      · -- skip branch: x already marked
        obtain ⟨a, rfl, haU⟩ := hdep x (List.mem_cons_self _ _)
        obtain ⟨seen1, expanded1, st1, evs, heq, hsub, hC1, hpre, hnm,
          hpend, hdin, hnd1, hins1, hdf1⟩ :=
          ihd st seen expanded hC
            (fun y hy => hdep y (List.mem_cons_of_mem _ hy)) hrem hnd hins
            hdf
            (fun b hb hbe y a2 hy => hp7 b hb hbe y a2
              (List.mem_cons_of_mem _ hy))
        have hexp : a ∈ expanded := by
          by_cases hae : a ∈ expanded
          · exact hae
          · exact absurd (hp7 a hseen hae (some a) a
              (List.mem_cons_self _ _) rfl) (lt_irrefl _)
        refine ⟨seen1, expanded1, st1, evs, ?_, hsub, hC1, hpre, hnm,
          hpend, ?_, hnd1, hins1, hdf1⟩
        · rw [expandDependencies_succ,
            expandLoop_cons_seen cfg env _ st seen expanded _ rest hseen,
            ← expandDependencies_succ]
          exact heq
        · intro y a2 hy ha2
          rcases List.mem_cons.1 hy with rfl | hy2
          · obtain ⟨δ, hδ⟩ := hpre
            injection ha2 with ha2
            subst ha2
            rw [hδ]
            exact List.mem_append_left _ hexp
          · exact hdin y a2 hy2 ha2
      · obtain ⟨a, rfl, haU⟩ := hdep x (List.mem_cons_self _ _)
        have hanotexp : a ∉ expanded :=
          fun hc => hseen (hins a hc)
        by_cases hleaf : a.dependencies = []
        · -- leaf branch: mark and emit immediately
          have hnd2 : (expanded ++ [a]).Nodup := nodup_concat _ _ hnd hanotexp
          have hins2 : ∀ a2, a2 ∈ expanded ++ [a] →
              some a2 ∈ seen ++ [some a] := by
            intro a2 h2
            rcases List.mem_append.1 h2 with h2 | h2
            · exact List.mem_append_left _ (hins a2 h2)
            · simp only [List.mem_singleton] at h2
              subst h2
              exact List.mem_append_right _ (by simp)
          have hdf2 : DepFirstAux cfg env [] (expanded ++ [a]) := by
            rw [depFirstAux_concat]
            refine ⟨hdf, ?_⟩
            rintro b ⟨q, hq, _⟩
            rw [hleaf] at hq
            exact absurd hq (List.not_mem_nil _)
          have hp72 : ∀ b, some b ∈ seen ++ [some a] →
              b ∉ expanded ++ [a] →
              ∀ y a2, y ∈ rest → y = some a2 → rank a2 < rank b := by
            intro b hb hbe y a2 hy hya
            have hbna : b ≠ a := by
              intro hc
              subst hc
              exact hbe (List.mem_append_right _ (by simp))
            have hbs : some b ∈ seen := by
              rcases List.mem_append.1 hb with hb | hb
              · exact hb
              · simp only [List.mem_singleton, Option.some.injEq] at hb
                exact absurd hb hbna
            have hbe2 : b ∉ expanded :=
              fun hc => hbe (List.mem_append_left _ hc)
            exact hp7 b hbs hbe2 y a2 (List.mem_cons_of_mem _ hy) hya
          obtain ⟨seen1, expanded1, st1, evs, heq, hsub, hC1, hpre, hnm,
            hpend, hdin, hnd1, hins1, hdf1⟩ :=
            ihd st (seen ++ [some a]) (expanded ++ [a]) hC
              (fun y hy => hdep y (List.mem_cons_of_mem _ hy))
              (Nat.lt_of_le_of_lt
                (remaining_mono U seen (seen ++ [some a])
                  (fun y hy => List.mem_append_left _ hy)) hrem)
              hnd2 hins2 hdf2 hp72
          refine ⟨seen1, expanded1, st1, evs, ?_,
            fun y hy => hsub y (List.mem_append_left _ hy), hC1, ?_, ?_,
            ?_, ?_, hnd1, hins1, hdf1⟩
          · rw [expandDependencies_succ,
              expandLoop_cons_leaf cfg env _ st seen expanded a rest hseen
                hleaf, ← expandDependencies_succ]
            exact heq
          · obtain ⟨δ, hδ⟩ := hpre
            exact ⟨[a] ++ δ, by rw [hδ, List.append_assoc]⟩
          · intro a2 h2
            rcases hnm a2 h2 with h2 | h2
            · rcases List.mem_append.1 h2 with h2 | h2
              · exact Or.inl h2
              · simp only [List.mem_singleton] at h2
                subst h2
                exact Or.inr hseen
            · exact Or.inr (fun hc => h2 (List.mem_append_left _ hc))
          · intro b hb
            rcases hpend b hb with hb2 | ⟨hb2, hb3⟩
            · exact Or.inl hb2
            · have hbna : b ≠ a := by
                intro hc
                subst hc
                exact hb3 (List.mem_append_right _ (by simp))
              have hbs : some b ∈ seen := by
                rcases List.mem_append.1 hb2 with h2 | h2
                · exact h2
                · simp only [List.mem_singleton, Option.some.injEq] at h2
                  exact absurd h2 hbna
              exact Or.inr ⟨hbs,
                fun hc => hb3 (List.mem_append_left _ hc)⟩
          · intro y a2 hy ha2
            rcases List.mem_cons.1 hy with rfl | hy2
            · obtain ⟨δ, hδ⟩ := hpre
              injection ha2 with ha2
              subst ha2
              rw [hδ]
              exact List.mem_append_left _
                (List.mem_append_right _ (by simp))
            · exact hdin y a2 hy2 ha2
        · -- node branch: recurse into the dependencies first
          rcases hm : mapSourceAssets cfg env st a.dependencies with
            ⟨assets, st1, e1⟩
          have hmok := mapSourceAssets_ok cfg env a.dependencies st hC
            (fun q hq => hdeps a haU q hq)
          rw [hm] at hmok
          simp only at hmok
          have hmc := mapSourceAssets_complete cfg env a.dependencies st hC
            (fun q hq => hdeps a haU q hq)
          rw [hm] at hmc
          simp only at hmc
          have hdepA : ∀ y, y ∈ assets → ∃ a2, y = some a2 ∧ a2 ∈ U := by
            intro y hy
            obtain ⟨b, q, _, hyb, hvb⟩ := hmok.2 y hy
            exact ⟨b, hyb, hU _ _ hvb⟩
          have hassetdep : ∀ y c, y ∈ assets → y = some c →
              DependsOn cfg env a c := by
            intro y c hy hyc
            obtain ⟨b, q, hq, hyb, hvb⟩ := hmok.2 y hy
            rw [hyc] at hyb
            injection hyb with hyb
            subst hyb
            exact ⟨q, hq, hvb⟩
          have hp7A : ∀ b, some b ∈ seen ++ [some a] → b ∉ expanded →
              ∀ y a2, y ∈ assets → y = some a2 → rank a2 < rank b := by
            intro b hb hbe y a2 hy hya
            have hlt : rank a2 < rank a :=
              hrank a haU a2 (hassetdep y a2 hy hya)
            rcases List.mem_append.1 hb with hb | hb
            · have := hp7 b hb hbe (some a) a (List.mem_cons_self _ _) rfl
              omega
            · simp only [List.mem_singleton, Option.some.injEq] at hb
              subst hb
              exact hlt
          have hremA : remaining U (seen ++ [some a]) < f := by
            have h1 : remaining U (seen ++ [some a]) < remaining U seen :=
              remaining_push_lt U a seen haU hseen
            omega
          have hins2 : ∀ a2, a2 ∈ expanded → some a2 ∈ seen ++ [some a] :=
            fun a2 h2 => List.mem_append_left _ (hins a2 h2)
          obtain ⟨seen2, expanded2, st2, evs2, heq2, hsub2, hC2, hpre2,
            hnm2, hpend2, hdin2, hnd2, hins2b, hdf2⟩ :=
            ihf assets st1 (seen ++ [some a]) expanded hmok.1 hdepA hremA
              hnd hins2 hdf hp7A
          -- push a after its dependency closure
          have hanot2 : a ∉ expanded2 := by
            intro hc
            rcases hnm2 a hc with hc2 | hc2
            · exact hanotexp hc2
            · exact hc2 (List.mem_append_right _ (by simp))
          have hnd3 : (expanded2 ++ [a]).Nodup :=
            nodup_concat _ _ hnd2 hanot2
          have hins3 : ∀ a2, a2 ∈ expanded2 ++ [a] → some a2 ∈ seen2 := by
            intro a2 h2
            rcases List.mem_append.1 h2 with h2 | h2
            · exact hins2b a2 h2
            · simp only [List.mem_singleton] at h2
              subst h2
              exact hsub2 _ (List.mem_append_right _ (by simp))
          have hdf3 : DepFirstAux cfg env [] (expanded2 ++ [a]) := by
            rw [depFirstAux_concat]
            refine ⟨hdf2, ?_⟩
            rintro b ⟨q, hq, hv⟩
            have hmem := hmc q hq b hv
            have := hdin2 (some b) b hmem rfl
            simpa using this
          have hp73 : ∀ b, some b ∈ seen2 → b ∉ expanded2 ++ [a] →
              ∀ y a2, y ∈ rest → y = some a2 → rank a2 < rank b := by
            intro b hb hbe y a2 hy hya
            have hbna : b ≠ a := by
              intro hc
              subst hc
              exact hbe (List.mem_append_right _ (by simp))
            rcases hpend2 b hb with hb2 | ⟨hb2, hb3⟩
            · exact absurd (List.mem_append_left _ hb2) hbe
            · have hbs : some b ∈ seen := by
                rcases List.mem_append.1 hb2 with h2 | h2
                · exact h2
                · simp only [List.mem_singleton, Option.some.injEq] at h2
                  exact absurd h2 hbna
              exact hp7 b hbs hb3 y a2 (List.mem_cons_of_mem _ hy) hya
          obtain ⟨seen3, expanded3, st3, evs3, heq3, hsub3, hC3, hpre3,
            hnm3, hpend3, hdin3, hnd3b, hins3b, hdf3b⟩ :=
            ihd st2 seen2 (expanded2 ++ [a]) hC2
              (fun y hy => hdep y (List.mem_cons_of_mem _ hy))
              (by
                have hle : remaining U seen2 ≤
                    remaining U (seen ++ [some a]) :=
                  remaining_mono U (seen ++ [some a]) seen2 hsub2
                omega)
              hnd3 hins3 hdf3 hp73
          obtain ⟨δ2, hδ2⟩ := hpre2
          obtain ⟨δ3, hδ3⟩ := hpre3
          refine ⟨seen3, expanded3, st3, e1 ++ evs2 ++ evs3, ?_,
            ?_, hC3, ?_, ?_, ?_, ?_, hnd3b, hins3b, hdf3b⟩
          · rw [expandDependencies_succ,
              expandLoop_cons_node cfg env _ st seen expanded a rest
                hseen hleaf, hm]
            simp only []
            rw [heq2]
            rw [expandDependencies_succ] at heq3
            simp only [heq3, List.append_assoc]
          · intro y hy
            exact hsub3 y (hsub2 y (List.mem_append_left _ hy))
          · refine ⟨δ2 ++ [a] ++ δ3, ?_⟩
            rw [hδ3, hδ2]
            simp [List.append_assoc]
          · intro a2 h2
            rcases hnm3 a2 h2 with h2 | h2
            · rcases List.mem_append.1 h2 with h2 | h2
              · rcases hnm2 a2 h2 with h3 | h3
                · exact Or.inl h3
                · exact Or.inr
                    (fun hc => h3 (List.mem_append_left _ hc))
              · simp only [List.mem_singleton] at h2
                subst h2
                exact Or.inr hseen
            · exact Or.inr (fun hc => h2 (hsub2 _
                (List.mem_append_left _ hc)))
          · intro b hb
            rcases hpend3 b hb with hb2 | ⟨hb2, hb3⟩
            · exact Or.inl hb2
            · have hbna : b ≠ a := by
                intro hc
                subst hc
                exact hb3 (List.mem_append_right _ (by simp))
              rcases hpend2 b hb2 with hb4 | ⟨hb4, hb5⟩
              · exact absurd (List.mem_append_left _ hb4) hb3
              · have hbs : some b ∈ seen := by
                  rcases List.mem_append.1 hb4 with h2 | h2
                  · exact h2
                  · simp only [List.mem_singleton,
                      Option.some.injEq] at h2
                    exact absurd h2 hbna
                exact Or.inr ⟨hbs, hb5⟩
          · intro y a2 hy ha2
            rcases List.mem_cons.1 hy with rfl | hy2
            · injection ha2 with ha2
              subst ha2
              rw [hδ3]
              exact List.mem_append_left _
                (List.mem_append_right _ (by simp))
            · exact hdin3 y a2 hy2 ha2

/-- Claim C2: for every acyclic dependency graph — any finite asset
universe `U` whose dependency relation `DependsOn` admits a rank
function, with all dependencies resolvable and a coherent cache —
closure expansion from any root list completes with an ordered,
de-duplicated output in dependency-first post-order: the output is
`Nodup`, at every split `pre ++ a :: suf` all dependency-assets of `a`
appear in `pre`, and every asset transitively reachable from the roots
appears.  In particular, for the diamond `A → {B, C}`, `B → D`,
`C → D`, the order is exactly `[D, B, C, A]`: `D` before `B` and `C`,
`B` before `C`, both before `A`, with `D` appearing exactly once. -/
theorem c2_acyclic_postorder :
    (∀ (cfg : Config) (env : Env) (U : List SourceAsset)
        (rank : SourceAsset → Nat) (st : SrcCache)
        (rootsA : List SourceAsset) (fuel : Nat),
      (∀ p a, valueOf cfg env p = .ok a → a ∈ U) →
      (∀ a, a ∈ U → ∀ q, q ∈ a.dependencies →
        ∃ b, valueOf cfg env (pathResolve cfg.basedir q) = .ok b) →
      (∀ a, a ∈ U → ∀ b, DependsOn cfg env a b → rank b < rank a) →
      CacheOK cfg env st →
      (∀ a, a ∈ rootsA → a ∈ U) →
      U.length < fuel →
      ∃ seen1 expanded1 st1 evs,
        expandDependencies cfg env fuel st [] [] (rootsA.map some) =
          (.ok (seen1, expanded1), st1, evs) ∧
        expanded1.Nodup ∧
        (∀ pre a suf, expanded1 = pre ++ a :: suf →
          ∀ b, DependsOn cfg env a b → b ∈ pre) ∧
        (∀ a, ReachableFrom cfg env rootsA a → a ∈ expanded1)) ∧
    (expandDependencies baseCfg diamondEnv 9 [] [] [] [some dA] =
      (Res.ok ([some dA, some dB, some dD, some dC], [dD, dB, dC, dA]),
       [("/r/B.js", Except.ok dB), ("/r/C.js", Except.ok dC),
        ("/r/D.js", Except.ok dD)],
       [Ev.compile "/r/B.js", Ev.analyze "/r/B.js", Ev.compile "/r/C.js",
        Ev.analyze "/r/C.js", Ev.compile "/r/D.js",
        Ev.analyze "/r/D.js"]) ∧
     [dD, dB, dC, dA].count dD = 1 ∧ [dD, dB, dC, dA].Nodup) := by
  constructor
  · intro cfg env U rank st rootsA fuel hU hdeps hrank hC hroots hfuel
    obtain ⟨seen1, expanded1, st1, evs, heq, _, _, _, _, _, hdin, hnd1,
      _, hdf1⟩ :=
      expand_postorder_master cfg env U rank hU hdeps hrank fuel
        (rootsA.map some) st [] [] hC
        (by
          intro x hx
          obtain ⟨a, ha, rfl⟩ := List.mem_map.1 hx
          exact ⟨a, rfl, hroots a ha⟩)
        (by rw [remaining_nil]; exact hfuel)
        List.nodup_nil
        (fun a2 h => absurd h (List.not_mem_nil _))
        trivial
        (fun b hb => absurd hb (List.not_mem_nil _))
    refine ⟨seen1, expanded1, st1, evs, heq, hnd1, ?_, ?_⟩
    · intro pre a suf hsplit b hb
      have := depFirstAux_split cfg env expanded1 [] hdf1 pre a suf
        hsplit b hb
      simpa using this
    · intro a ha
      induction ha with
      | root a2 h2 => exact hdin (some a2) a2 (List.mem_map_of_mem _ h2) rfl
      | step a2 b2 _ hd ih =>
        obtain ⟨pre, suf, hps⟩ := List.append_of_mem ih
        have := depFirstAux_split cfg env expanded1 [] hdf1 pre a2 suf
          hps b2 hd
        simp only [List.nil_append] at this
        rw [hps]
        exact List.mem_append_left _ this
  · exact ⟨by rfl, by decide, by decide⟩

/-- Claim C2 witness: the universal statement applied to the concrete
one-file project (trivially acyclic, constant rank). -/
theorem c2_witness :
    ∃ seen1 expanded1 st1 evs,
      expandDependencies baseCfg singleEnv 9 [] [] []
          (([(⟨"/r/a.js", "a;", []⟩ : SourceAsset)]).map some) =
        (.ok (seen1, expanded1), st1, evs) ∧
      expanded1.Nodup ∧
      (∀ pre a suf, expanded1 = pre ++ a :: suf →
        ∀ b, DependsOn baseCfg singleEnv a b → b ∈ pre) ∧
      (∀ a, ReachableFrom baseCfg singleEnv
          [(⟨"/r/a.js", "a;", []⟩ : SourceAsset)] a → a ∈ expanded1) := by
  refine c2_acyclic_postorder.1 baseCfg singleEnv
    [⟨"/r/a.js", "a;", []⟩] (fun _ => 0) [] [⟨"/r/a.js", "a;", []⟩] 9
    ?_ ?_ ?_ ?_ (fun a h => h) (by decide)
  · intro p a h
    obtain ⟨d, hd⟩ := valueOf_ok_files baseCfg singleEnv p a h
    by_cases h1 : p = "/r/a.js"
    · subst h1
      have hv : valueOf baseCfg singleEnv "/r/a.js" =
          .ok ⟨"/r/a.js", "a;", []⟩ := by rfl
      rw [hv] at h
      injection h with h2
      subst h2
      simp
    · exfalso
      have : singleEnv.files p = none := by
        show (if p = "/r/a.js" then some "a;" else none) = none
        rw [if_neg h1]
      rw [this] at hd
      exact Option.noConfusion hd
  · intro a ha q hq
    simp only [List.mem_singleton] at ha
    subst ha
    simp at hq
  · intro a ha b hd
    simp only [List.mem_singleton] at ha
    subst ha
    obtain ⟨q, hq, _⟩ := hd
    simp at hq
  · intro k r hmem
    simp at hmem
